import Mathlib

/-!
# Verification of the multipole_expansion core

A shallow embedding of the repository `multipole_expansion` (modules
`multipole_moments.py`, `derivatives.py`, `contraction.py`) together with
proofs and refutations of the frozen claims about it.

Symbolic expressions produced by the code are sums of monomials; a monomial
is an integer coefficient, integer exponents of the two magnitude scalars
`r0` (field magnitude) and `ra0` (source magnitude), and a product of
indexed atoms (`xa(i)`, `x(i)`, `n(i)`, `delta(i,j)`, `dot(xa,n)`).  The
host CAS keeps expressions in a canonical commutative normal form; we
represent an expression by its distributed list of monomials and compare
expressions by their canonical coefficient function (`eqR` below).
Index labels are natural numbers.
-/

/-- The closed vocabulary of indexed symbols used by `TensorContraction`
(`contraction.py`): `xa(i)` (source vector), `x(i)` (field/observation
vector), `n(i)` (unit vector), `delta(i,j)` (Kronecker delta, arguments in
construction order: the code never declares it symmetric), and the ground
term `dot(xa, n)`. -/
inductive Atom where
  | xa : ℕ → Atom
  | fx : ℕ → Atom
  | nv : ℕ → Atom
  | delta : ℕ → ℕ → Atom
  | dotv : Atom
deriving DecidableEq, Repr

/-- One monomial of a symbolic expression: an integer coefficient, the
exponents of the scalars `r0` and `ra0`, and the multiset (kept as a list
in construction order) of indexed atoms. -/
structure Mon where
  coeff : ℤ
  r0e : ℤ
  ra0e : ℤ
  atoms : List Atom
deriving DecidableEq, Repr

/-- An expression in distributed form: a formal sum of monomials. -/
abbrev R := List Mon

/-- The constant-one expression (`Expression.num(1)`). -/
def monOne : Mon := ⟨1, 0, 0, []⟩

/-- Negate every monomial: models subtracting a sum. -/
def negR (r : R) : R := r.map (fun m => { m with coeff := -m.coeff })

/-- `MultipoleMoments._double_factorial` / `DerivativeEngine._double_factorial`:
`n!! = n*(n-2)*...`, with `n ≤ 1 ↦ 1`. -/
def doubleFactorial : ℕ → ℕ
  | 0 => 1
  | 1 => 1
  | n + 2 => (n + 2) * doubleFactorial n

/-! ## The pairing generator

`_generate_k_pairings` appears twice in the source, with identical code, in
`multipole_moments.py` and in `derivatives.py`; `genPairings` embeds both. -/

/-- The doubly nested loop `for i in range(n): for j in range(i+1, n)`. -/
def allPairs (n : ℕ) : List (ℕ × ℕ) :=
  (List.range n).flatMap (fun i => (List.range' (i + 1) (n - (i + 1))).map (fun j => (i, j)))

/-- `tuple(sorted(p))` for a pair. -/
def sortPair (p : ℕ × ℕ) : ℕ × ℕ := if p.1 ≤ p.2 then p else (p.2, p.1)

/-- Lexicographic order on pairs, as Python `sorted` uses on 2-tuples. -/
def pairLe (p q : ℕ × ℕ) : Prop := p.1 < q.1 ∨ (p.1 = q.1 ∧ p.2 ≤ q.2)

instance : DecidableRel pairLe := fun p q => by
  unfold pairLe; exact inferInstance

instance : IsTotal (ℕ × ℕ) pairLe := ⟨by intro p q; unfold pairLe; omega⟩

instance : IsTrans (ℕ × ℕ) pairLe := ⟨by intro p q s; unfold pairLe; omega⟩

instance : IsAntisymm (ℕ × ℕ) pairLe :=
  ⟨by intro p q h h'; unfold pairLe at *; obtain ⟨a, b⟩ := p; obtain ⟨c, d⟩ := q
      simp only [Prod.mk.injEq]; omega⟩

instance : IsRefl (ℕ × ℕ) pairLe := ⟨by intro p; unfold pairLe; omega⟩

/-- The normalisation used by the duplicate filter:
`tuple(sorted([tuple(sorted(p)) for p in pairing]))`. -/
def normKey (P : List (ℕ × ℕ)) : List (ℕ × ℕ) :=
  List.insertionSort pairLe (P.map sortPair)

/-- The `seen`/`unique` duplicate-removal loop at the end of
`_generate_k_pairings`: keep the first pairing of each normalised form. -/
def dedupAux (seen : List (List (ℕ × ℕ))) :
    List (List (ℕ × ℕ)) → List (List (ℕ × ℕ))
  | [] => []
  | P :: rest =>
    if normKey P ∈ seen then dedupAux seen rest
    else P :: dedupAux (normKey P :: seen) rest

/-- `remaining = [idx for idx in range(n) if idx != i and idx != j]`. -/
def remainingList (n i j : ℕ) : List ℕ :=
  (List.range n).filter (fun t => t != i && t != j)

/-- `tuple(remaining[idx] for idx in pair)` applied to a sub-pairing
(out-of-range access never happens on the calls the code makes; it is
modelled by `getD _ 0`). -/
def mapBack (rem : List ℕ) (S : List (ℕ × ℕ)) : List (ℕ × ℕ) :=
  S.map (fun p => (rem.getD p.1 0, rem.getD p.2 0))

/-- `_generate_k_pairings(n, k)`: all distinct ways to choose `k` disjoint
unordered pairs of positions from `0..n-1`.  `k = 0` gives the empty
pairing, `k = 1` all pairs `(i,j)` with `i < j`, and `k ≥ 2` recursively
chooses a first pair and pairs the remaining positions, de-duplicating by
normalised form at the end. -/
def genPairings : ℕ → ℕ → List (List (ℕ × ℕ))
  | _, 0 => [[]]
  | n, k + 1 =>
    if k = 0 then (allPairs n).map (fun p => [p])
    else
      let raw := (allPairs n).flatMap (fun p =>
        let rem := remainingList n p.1 p.2
        if 2 * k ≤ rem.length then
          (genPairings (n - 2) k).map (fun S => p :: mapBack rem S)
        else [])
      dedupAux [] raw

/-! ## The Q-tensor and derivative builders

`Q_tensor` (`multipole_moments.py`) and `nth_derivative_1_over_r`
(`derivatives.py`).  Python list indexing `indices[pos]` raises on an
out-of-range position; this is modelled by `List.get?` threaded through
`Option` (`none` = the call raises). -/

/-- Sequential `Option` traversal of a list: the Python loops abort at the
first raised error, and `none` propagates the same way. -/
def mapMO (f : α → Option β) : List α → Option (List β)
  | [] => some []
  | a :: l => do
    let b ← f a
    let bs ← mapMO f l
    pure (b :: bs)

/-- The positions of `0..n-1` not covered by the pairing
(`paired_positions` complement in the trace loops). -/
def freePositions (n : ℕ) (pairing : List (ℕ × ℕ)) : List ℕ :=
  (List.range n).filter
    (fun pos => !(pairing.any (fun p => p.1 == pos || p.2 == pos)))

/-- The body of the per-pairing loop shared by
`MultipoleMoments._trace_with_k_pairs` and
`DerivativeEngine._derivative_trace_with_k_pairs`: the product of a
`delta` for every pair and a vector atom (built by `vec`) for every
unpaired position.  The two call sites differ only in `vec` (`xa` vs `x`). -/
def pairingAtoms (vec : ℕ → Atom) (idx : List ℕ) (n : ℕ)
    (pairing : List (ℕ × ℕ)) : Option (List Atom) := do
  let ds ← mapMO (fun p => do
    let a ← idx.get? p.1
    let b ← idx.get? p.2
    pure (Atom.delta a b)) pairing
  let xs ← mapMO (fun pos => do
    let a ← idx.get? pos
    pure (vec a)) (freePositions n pairing)
  pure (ds ++ xs)

/-- `MultipoleMoments._trace_with_k_pairs(n, indices, k)`: the `k`-pair
trace correction of the Q tensor, coefficient `(-1)^k * (2n-2k-1)!!`
(1 when `2n-2k-1 ≤ 0`), times `ra0^(2k)`. -/
def qTraceK (n : ℕ) (idx : List ℕ) (k : ℕ) : Option (List Mon) :=
  if n / 2 < k then some []
  else do
    let terms ← mapMO (pairingAtoms Atom.xa idx n) (genPairings n k)
    let coeffArg : ℤ := 2 * (n : ℤ) - 2 * (k : ℤ) - 1
    let traceCoeff : ℤ := if 0 < coeffArg then (doubleFactorial coeffArg.toNat : ℤ) else 1
    let c : ℤ := (-1) ^ k * traceCoeff
    pure (terms.map (fun ats => ⟨c, 0, 2 * (k : ℤ), ats⟩))

/-- `MultipoleMoments._compute_all_traces(n, indices)`: sum of the
`k`-pair corrections for `k = 1 .. n // 2`. -/
def qTraces (n : ℕ) (idx : List ℕ) : Option (List Mon) := do
  let ls ← mapMO (qTraceK n idx) ((List.range (n / 2)).map (· + 1))
  pure ls.flatten

/-- `MultipoleMoments._Q_n_general(n, indices)`:
`(2n-1)!! * xa(i₁)*...*xa(iₙ)` plus all trace corrections. -/
def qGeneral (n : ℕ) (idx : List ℕ) : Option R := do
  let main : Mon := ⟨(doubleFactorial (2 * n - 1) : ℤ), 0, 0, idx.map Atom.xa⟩
  let ts ← qTraces n idx
  pure (main :: ts)

/-- `MultipoleMoments.Q_tensor(n, indices)` (with explicit `indices`, as
every claim supplies them).  No argument validation is performed by the
code: `n = 0` and `n = 1` are special-cased and everything else goes to
the general algorithm. -/
def Qtensor (n : ℕ) (idx : List ℕ) : Option R :=
  if n = 0 then some [monOne]
  else if n = 1 then (idx.get? 0).map (fun i => [⟨1, 0, 0, [Atom.xa i]⟩])
  else qGeneral n idx

/-- `MultipoleMoments._Q_2(i, j) = 3*xa(i)*xa(j) - delta(i,j)*ra0^2`
(distributed form). -/
def Q2closed (i j : ℕ) : R :=
  [⟨3, 0, 0, [Atom.xa i, Atom.xa j]⟩, ⟨-1, 0, 2, [Atom.delta i j]⟩]

/-- `MultipoleMoments._Q_3(i, j, k) = 15*xa(i)*xa(j)*xa(k)
- 3*ra0^2*(delta(i,j)*xa(k) + delta(i,k)*xa(j) + delta(j,k)*xa(i))`
(distributed form). -/
def Q3closed (i j k : ℕ) : R :=
  [⟨15, 0, 0, [Atom.xa i, Atom.xa j, Atom.xa k]⟩,
   ⟨-3, 0, 2, [Atom.delta i j, Atom.xa k]⟩,
   ⟨-3, 0, 2, [Atom.delta i k, Atom.xa j]⟩,
   ⟨-3, 0, 2, [Atom.delta j k, Atom.xa i]⟩]

/-- `DerivativeEngine._derivative_trace_with_k_pairs(n, indices, k)`:
same pairing sum as the Q tensor but with `x` in place of `xa`,
`r0^(2k)` in place of `ra0^(2k)`, and no `(-1)^k` sign. -/
def derivTraceK (n : ℕ) (idx : List ℕ) (k : ℕ) : Option (List Mon) :=
  if n / 2 < k then some []
  else do
    let terms ← mapMO (pairingAtoms Atom.fx idx n) (genPairings n k)
    let coeffArg : ℤ := 2 * (n : ℤ) - 2 * (k : ℤ) - 1
    let traceCoeff : ℤ := if 0 < coeffArg then (doubleFactorial coeffArg.toNat : ℤ) else 1
    pure (terms.map (fun ats => ⟨traceCoeff, 2 * (k : ℤ), 0, ats⟩))

/-- `DerivativeEngine._compute_all_derivative_traces(n, indices)`. -/
def derivTraces (n : ℕ) (idx : List ℕ) : Option (List Mon) := do
  let ls ← mapMO (derivTraceK n idx) ((List.range (n / 2)).map (· + 1))
  pure ls.flatten

/-- `DerivativeEngine._build_derivative_numerator(n, indices)`:
`(2n-1)!! * x(i₁)*...*x(iₙ)` minus the whole trace sum. -/
def derivNumerator (n : ℕ) (idx : List ℕ) : Option R := do
  let main : Mon := ⟨(doubleFactorial (2 * n - 1) : ℤ), 0, 0, idx.map Atom.fx⟩
  let ts ← derivTraces n idx
  pure (main :: negR ts)

/-- `DerivativeEngine._recursive_derivative(n, indices)`:
`(-1)^n * numerator / r0^(2n+1)`. -/
def recursiveDeriv (n : ℕ) (idx : List ℕ) : Option R := do
  let num ← derivNumerator n idx
  pure (num.map (fun m =>
    ⟨(-1) ^ n * m.coeff, m.r0e - (2 * (n : ℤ) + 1), m.ra0e, m.atoms⟩))

/-- `DerivativeEngine.nth_derivative_1_over_r(n, indices)`: `1/r0` for
`n = 0`, the closed first and second derivatives for `n = 1, 2`, and the
recursive formula for `n ≥ 3`. -/
def nthDeriv (n : ℕ) (idx : List ℕ) : Option R :=
  if n = 0 then some [⟨1, -1, 0, []⟩]
  else if n = 1 then (idx.get? 0).map (fun i => [⟨-1, -3, 0, [Atom.fx i]⟩])
  else if n = 2 then do
    let i ← idx.get? 0
    let j ← idx.get? 1
    pure [⟨3, -5, 0, [Atom.fx i, Atom.fx j]⟩, ⟨-1, -3, 0, [Atom.delta i j]⟩]
  else recursiveDeriv n idx

/-! ## The contraction engine

`TensorContraction.contract_indices` (`contraction.py`).  Each rewrite rule
is a pattern `A(i_) * B(i_) -> C` over a product; `Expression.replace`
substitutes every non-overlapping match inside a term.  On a monomial this
removes matched factor pairs, multiplies scalar replacements in, and adds
replacement atoms.  A pattern never matches across different terms of a
sum, so `contract_indices` acts monomial by monomial on a distributed
expression. -/

/-- Effect of one rule match: atoms to add, a scalar coefficient factor,
and increments of the `r0` and `ra0` exponents. -/
structure Eff where
  add : List Atom
  c : ℤ
  dr0 : ℤ
  dra0 : ℤ
deriving DecidableEq, Repr

/-- `xa(i_) * xa(i_) -> ra0^2` (`_contract_xa_xa`). -/
def xaxaHit : Atom → Atom → Option Eff
  | Atom.xa i, Atom.xa j => if i = j then some ⟨[], 1, 0, 2⟩ else none
  | _, _ => none

/-- `xa(i_) * n(i_) -> dot(xa, n)`, either factor order
(`_contract_xa_n`). -/
def xanHit : Atom → Atom → Option Eff
  | Atom.xa i, Atom.nv j => if i = j then some ⟨[Atom.dotv], 1, 0, 0⟩ else none
  | Atom.nv i, Atom.xa j => if i = j then some ⟨[Atom.dotv], 1, 0, 0⟩ else none
  | _, _ => none

/-- `x(i_) * x(i_) -> r0^2` (`_contract_x_x`). -/
def fxfxHit : Atom → Atom → Option Eff
  | Atom.fx i, Atom.fx j => if i = j then some ⟨[], 1, 2, 0⟩ else none
  | _, _ => none

/-- `x(i_) * n(i_) -> r0`, either factor order (`_contract_x_n`). -/
def fxnHit : Atom → Atom → Option Eff
  | Atom.fx i, Atom.nv j => if i = j then some ⟨[], 1, 1, 0⟩ else none
  | Atom.nv i, Atom.fx j => if i = j then some ⟨[], 1, 1, 0⟩ else none
  | _, _ => none

/-- `n(i_) * n(i_) -> 1` (`_contract_n_n`). -/
def nnHit : Atom → Atom → Option Eff
  | Atom.nv i, Atom.nv j => if i = j then some ⟨[], 1, 0, 0⟩ else none
  | _, _ => none

/-- `delta(i_, j_) * xa(j_) -> xa(i_)`, either factor order: the rule
contracts only the second slot of the delta (`_contract_delta`). -/
def dxaHit : Atom → Atom → Option Eff
  | Atom.delta a b, Atom.xa c => if c = b then some ⟨[Atom.xa a], 1, 0, 0⟩ else none
  | Atom.xa c, Atom.delta a b => if c = b then some ⟨[Atom.xa a], 1, 0, 0⟩ else none
  | _, _ => none

/-- `delta(i_, j_) * n(j_) -> n(i_)`, either factor order
(`_contract_delta`). -/
def dnvHit : Atom → Atom → Option Eff
  | Atom.delta a b, Atom.nv c => if c = b then some ⟨[Atom.nv a], 1, 0, 0⟩ else none
  | Atom.nv c, Atom.delta a b => if c = b then some ⟨[Atom.nv a], 1, 0, 0⟩ else none
  | _, _ => none

/-- Find the first later factor forming a match with `a`; return the
effect and the remaining factors. -/
def findHit (hit : Atom → Atom → Option Eff) (a : Atom) :
    List Atom → Option (Eff × List Atom)
  | [] => none
  | b :: rest =>
    match hit a b with
    | some e => some (e, rest)
    | none => (findHit hit a rest).map (fun er => (er.1, b :: er.2))

/-- One exhaustive replacement pass of a two-factor rule over the factors
of a monomial (replaces every non-overlapping match; replacement atoms do
not re-match within the same pass).  Structural recursion on a fuel that
callers set to the list length.  Returns
(kept factors, added factors, coefficient factor, r0 shift, ra0 shift). -/
def scanFuel (hit : Atom → Atom → Option Eff) :
    ℕ → List Atom → List Atom × List Atom × ℤ × ℤ × ℤ
  | 0, l => (l, [], 1, 0, 0)
  | _ + 1, [] => ([], [], 1, 0, 0)
  | fuel + 1, a :: rest =>
    match findHit hit a rest with
    | some (e, rest') =>
      let s := scanFuel hit fuel rest'
      (s.1, e.add ++ s.2.1, e.c * s.2.2.1, e.dr0 + s.2.2.2.1, e.dra0 + s.2.2.2.2)
    | none =>
      let s := scanFuel hit fuel rest
      (a :: s.1, s.2.1, s.2.2.1, s.2.2.2.1, s.2.2.2.2)

/-- Apply one `Expression.replace` call for a two-factor rule to a
monomial. -/
def runRule (hit : Atom → Atom → Option Eff) (m : Mon) : Mon :=
  let s := scanFuel hit m.atoms.length m.atoms
  ⟨m.coeff * s.2.2.1, m.r0e + s.2.2.2.1, m.ra0e + s.2.2.2.2, s.1 ++ s.2.1⟩

/-- `delta(i_, i_) -> 3` (`_contract_delta`, trace of the identity):
remove every diagonal delta, multiplying the coefficient by 3. -/
def traceScan : List Atom → List Atom × ℤ
  | [] => ([], 1)
  | a :: rest =>
    let s := traceScan rest
    match a with
    | Atom.delta i j => if i = j then (s.1, 3 * s.2) else (a :: s.1, s.2)
    | _ => (a :: s.1, s.2)

/-- One pass of `contract_indices` on a monomial, in the order of the
source: `xa*xa`, `xa*n` (pattern and reverse), `x*x`, `x*n` (pattern and
reverse), `n*n`, then the delta rules (`delta*xa` pattern and reverse,
`delta*n` pattern and reverse, `delta(i,i) -> 3`). -/
def contractMon (m : Mon) : Mon :=
  let m1 := runRule xaxaHit m
  let m2 := runRule xanHit (runRule xanHit m1)
  let m3 := runRule fxfxHit m2
  let m4 := runRule fxnHit (runRule fxnHit m3)
  let m5 := runRule nnHit m4
  let m6 := runRule dxaHit (runRule dxaHit m5)
  let m7 := runRule dnvHit (runRule dnvHit m6)
  let s := traceScan m7.atoms
  ⟨m7.coeff * s.2, m7.r0e, m7.ra0e, s.1⟩

/-- One pass of `TensorContraction.contract_indices` on an expression. -/
def contract (r : R) : R := r.map contractMon

/-! ## Canonical equality of expressions

The host CAS compares expressions after normalising commutative sums and
products.  Two distributed expressions are canonically equal iff every
possible monomial shape (scalar exponents plus the multiset of atoms)
carries the same total coefficient in both.  The multiset of atoms is
canonicalised by sorting with an (arbitrary) linear order on atoms. -/

/-- Injective code of an atom, used only to order atoms canonically. -/
def atomCode : Atom → ℕ × ℕ × ℕ
  | Atom.xa i => (0, i, 0)
  | Atom.fx i => (1, i, 0)
  | Atom.nv i => (2, i, 0)
  | Atom.delta i j => (3, i, j)
  | Atom.dotv => (4, 0, 0)

/-- Lexicographic order on coded atoms. -/
def atomLe (a b : Atom) : Prop :=
  (atomCode a).1 < (atomCode b).1 ∨
    ((atomCode a).1 = (atomCode b).1 ∧
      ((atomCode a).2.1 < (atomCode b).2.1 ∨
        ((atomCode a).2.1 = (atomCode b).2.1 ∧ (atomCode a).2.2 ≤ (atomCode b).2.2)))

instance : DecidableRel atomLe := fun a b => by
  unfold atomLe; exact inferInstance

instance : IsTotal Atom atomLe := ⟨by intro a b; unfold atomLe; omega⟩

instance : IsTrans Atom atomLe := ⟨by intro a b c; unfold atomLe; omega⟩

theorem atomCode_inj {a b : Atom} (h : atomCode a = atomCode b) : a = b := by
  cases a <;> cases b <;> simp_all [atomCode]

theorem atomLe_antisymm (a b : Atom) (h : atomLe a b) (h' : atomLe b a) : a = b := by
  apply atomCode_inj
  unfold atomLe at h h'
  rcases hA : atomCode a with ⟨x, y, z⟩
  rcases hB : atomCode b with ⟨u, v, w⟩
  rw [hA, hB] at h h'
  dsimp only at h h'
  simp only [Prod.mk.injEq]
  omega

instance : IsAntisymm Atom atomLe := ⟨atomLe_antisymm⟩

instance : IsRefl Atom atomLe := ⟨by intro a; unfold atomLe; omega⟩

/-- Canonical arrangement of the factors of a monomial. -/
def sortAtoms (l : List Atom) : List Atom := List.insertionSort atomLe l

/-- The canonical shape of a monomial: scalar exponents plus sorted
factors.  Two monomials are like terms iff their keys agree. -/
def mkey (m : Mon) : ℤ × ℤ × List Atom := (m.r0e, m.ra0e, sortAtoms m.atoms)

/-- Total coefficient that the monomial shape `key` carries in `r`. -/
def coeffOf (r : R) (key : ℤ × ℤ × List Atom) : ℤ :=
  ((r.filter (fun m => decide (mkey m = key))).map Mon.coeff).sum

/-- Canonical equality: every monomial shape has the same total
coefficient.  This is exactly structural equality after normalising
commutative sums and products (and combining like terms). -/
def eqR (r₁ r₂ : R) : Prop := ∀ key, coeffOf r₁ key = coeffOf r₂ key

theorem coeffOf_of_not_mem {r : R} {key : ℤ × ℤ × List Atom}
    (h : key ∉ r.map mkey) : coeffOf r key = 0 := by
  unfold coeffOf
  have : r.filter (fun m => decide (mkey m = key)) = [] := by
    apply List.filter_eq_nil_iff.2
    intro m hm hkey
    exact h (List.mem_map.2 ⟨m, hm, by simpa using hkey⟩)
  simp [this]

instance eqRDecidable (r₁ r₂ : R) : Decidable (eqR r₁ r₂) :=
  decidable_of_iff
    (∀ key ∈ (r₁ ++ r₂).map mkey, coeffOf r₁ key = coeffOf r₂ key) <| by
  constructor
  · intro h key
    by_cases hk : key ∈ (r₁ ++ r₂).map mkey
    · exact h key hk
    · rw [List.map_append] at hk
      rw [coeffOf_of_not_mem (fun hm => hk (List.mem_append.2 (Or.inl hm))),
        coeffOf_of_not_mem (fun hm => hk (List.mem_append.2 (Or.inr hm)))]
  · intro h key _
    exact h key

/-- The delta symbol is not declared symmetric in the code, so
`delta(i,j)` and `delta(j,i)` are structurally different atoms.  This
normalisation additionally orients every delta's arguments, giving the
coarser equality that treats the delta as symmetric. -/
def atomSymD : Atom → Atom
  | Atom.delta i j => if i ≤ j then Atom.delta i j else Atom.delta j i
  | a => a

/-- Orient every delta in an expression. -/
def symDelta (r : R) : R := r.map (fun m => { m with atoms := m.atoms.map atomSymD })

/-- Canonical equality up to the (mathematical) symmetry of the delta. -/
def eqRD (r₁ r₂ : R) : Prop := eqR (symDelta r₁) (symDelta r₂)

instance (r₁ r₂ : R) : Decidable (eqRD r₁ r₂) := by
  unfold eqRD; exact inferInstance

/-! ## Basic facts about the pairing generator -/

theorem mem_allPairs {n i j : ℕ} : (i, j) ∈ allPairs n ↔ i < j ∧ j < n := by
  unfold allPairs
  simp only [List.mem_flatMap, List.mem_map, List.mem_range, List.mem_range'_1,
    Prod.mk.injEq]
  constructor
  · rintro ⟨a, ha, b, hb, rfl, rfl⟩; omega
  · rintro ⟨hij, hjn⟩; exact ⟨i, by omega, j, by omega, rfl, rfl⟩

theorem allPairs_nodup (n : ℕ) : (allPairs n).Nodup := by
  unfold allPairs
  apply List.nodup_flatMap.2
  constructor
  · intro i _
    exact (List.nodup_range' ..).map (fun a b h => by simpa using congrArg Prod.snd h)
  · apply List.Pairwise.imp ?_ ((List.nodup_range n))
    intro a b hab
    intro p hp hq
    simp only [List.mem_map] at hp hq
    obtain ⟨x, _, rfl⟩ := hp
    obtain ⟨y, _, hxy⟩ := hq
    have hfst := congrArg Prod.fst hxy
    simp only at hfst
    exact hab hfst.symm

theorem mem_remainingList {n i j t : ℕ} :
    t ∈ remainingList n i j ↔ t < n ∧ t ≠ i ∧ t ≠ j := by
  unfold remainingList
  simp [List.mem_filter, bne_iff_ne, and_assoc]

theorem remainingList_sorted (n i j : ℕ) : (remainingList n i j).Sorted (· < ·) :=
  (List.sorted_lt_range n).filter _

theorem remainingList_nodup (n i j : ℕ) : (remainingList n i j).Nodup :=
  (remainingList_sorted n i j).nodup

theorem remainingList_length {n i j : ℕ} (hi : i < n) (hj : j < n) (hij : i ≠ j) :
    (remainingList n i j).length + 2 = n := by
  have hnd := remainingList_nodup n i j
  have hfin : (remainingList n i j).toFinset = Finset.range n \ {i, j} := by
    ext t
    simp only [List.mem_toFinset, mem_remainingList, Finset.mem_sdiff,
      Finset.mem_range, Finset.mem_insert, Finset.mem_singleton]
    tauto
  have hcard := List.toFinset_card_of_nodup hnd
  rw [hfin] at hcard
  rw [Finset.card_sdiff (by intro t ht; simp at ht; rcases ht with rfl | rfl <;> simpa)] at hcard
  have h2 : ({i, j} : Finset ℕ).card = 2 := by
    rw [Finset.card_insert_of_not_mem (by simpa using hij), Finset.card_singleton]
  rw [h2, Finset.card_range] at hcard
  omega

/-- C7 helper: for fewer than two positions there is no pair at all. -/
theorem allPairs_eq_nil {n : ℕ} (h : n < 2) : allPairs n = [] := by
  match n, h with
  | 0, _ => rfl
  | 1, _ => rfl

/--
C7: for every `n ≥ 0` and every `k` with `2*k > n`, `_generate_k_pairings`
returns the empty list of pairings (and, being total, raises no error).
-/
theorem genPairings_eq_nil_of_two_mul_gt (n k : ℕ) (h : n < 2 * k) :
    genPairings n k = [] := by
  match k with
  | 0 => omega
  | k + 1 =>
    rw [genPairings]
    by_cases hk : k = 0
    · subst hk
      rw [if_pos rfl, allPairs_eq_nil (by omega)]
      rfl
    · rw [if_neg hk]
      have hraw : ((allPairs n).flatMap (fun p =>
          let rem := remainingList n p.1 p.2
          if 2 * k ≤ rem.length then
            (genPairings (n - 2) k).map (fun S => p :: mapBack rem S)
          else [])) = [] := by
        apply List.flatMap_eq_nil_iff.2
        intro p hp
        obtain ⟨i, j⟩ := p
        have hm := mem_allPairs.1 hp
        have hlen : (remainingList n i j).length + 2 = n :=
          remainingList_length (by omega) (by omega) (by omega)
        simp only
        rw [if_neg (by omega)]
      simp only [hraw]
      rfl

/-- Witness for C7 at `n = 3`, `k = 2`. -/
theorem genPairings_eq_nil_of_two_mul_gt_witness :
    3 < 2 * 2 ∧ genPairings 3 2 = [] :=
  ⟨by decide, genPairings_eq_nil_of_two_mul_gt 3 2 (by decide)⟩

/-! ## Claim C5: concrete values of the Q tensor -/

/--
C5: `Q_tensor` returns exactly the spec's concrete values:
`Q_tensor(0,[]) = 1`, `Q_tensor(1,[i]) = xa(i)`,
`Q_tensor(2,[i,j]) = 3*xa(i)*xa(j) - delta(i,j)*ra0^2`, and
`Q_tensor(3,[i,j,k]) = 15*xa(i)*xa(j)*xa(k)
 - 3*ra0^2*(delta(i,j)*xa(k) + delta(i,k)*xa(j) + delta(j,k)*xa(i))`,
for distinct index labels (written in distributed normal form).
-/
theorem Qtensor_concrete_values (i j k : ℕ)
    (_hij : i ≠ j) (_hik : i ≠ k) (_hjk : j ≠ k) :
    Qtensor 0 [] = some [⟨1, 0, 0, []⟩] ∧
    Qtensor 1 [i] = some [⟨1, 0, 0, [Atom.xa i]⟩] ∧
    Qtensor 2 [i, j] = some [⟨3, 0, 0, [Atom.xa i, Atom.xa j]⟩,
      ⟨-1, 0, 2, [Atom.delta i j]⟩] ∧
    Qtensor 3 [i, j, k] = some [⟨15, 0, 0, [Atom.xa i, Atom.xa j, Atom.xa k]⟩,
      ⟨-3, 0, 2, [Atom.delta i j, Atom.xa k]⟩,
      ⟨-3, 0, 2, [Atom.delta i k, Atom.xa j]⟩,
      ⟨-3, 0, 2, [Atom.delta j k, Atom.xa i]⟩] :=
  ⟨rfl, rfl, rfl, rfl⟩

/-- Witness for C5 at the distinct labels `0, 1, 2`. -/
theorem Qtensor_concrete_values_witness :
    (0 : ℕ) ≠ 1 ∧ (0 : ℕ) ≠ 2 ∧ (1 : ℕ) ≠ 2 ∧
    Qtensor 2 [0, 1] = some [⟨3, 0, 0, [Atom.xa 0, Atom.xa 1]⟩,
      ⟨-1, 0, 2, [Atom.delta 0 1]⟩] :=
  ⟨by decide, by decide, by decide,
    (Qtensor_concrete_values 0 1 2 (by decide) (by decide) (by decide)).2.2.1⟩

/-! ## Claim C10: the general pairing-sum path agrees with the hand-coded
closed forms `_Q_2` and `_Q_3` -/

/--
C10: `_Q_n_general(2, [i,j])` equals `_Q_2(i,j)` and `_Q_n_general(3,
[i,j,k])` equals `_Q_3(i,j,k)` for distinct labels, up to canonical
normalisation (here they even agree monomial for monomial once `_Q_2` and
`_Q_3` are distributed).
-/
theorem qGeneral_matches_closed_forms (i j k : ℕ)
    (_hij : i ≠ j) (_hik : i ≠ k) (_hjk : j ≠ k) :
    qGeneral 2 [i, j] = some (Q2closed i j) ∧
    qGeneral 3 [i, j, k] = some (Q3closed i j k) :=
  ⟨rfl, rfl⟩

/-- Witness for C10 at the distinct labels `0, 1, 2`. -/
theorem qGeneral_matches_closed_forms_witness :
    (0 : ℕ) ≠ 1 ∧ (0 : ℕ) ≠ 2 ∧ (1 : ℕ) ≠ 2 ∧
    qGeneral 2 [0, 1] = some (Q2closed 0 1) :=
  ⟨by decide, by decide, by decide,
    (qGeneral_matches_closed_forms 0 1 2 (by decide) (by decide) (by decide)).1⟩

/-! ## Claim C9: no fail-fast validation of `n` and `indices` -/

/--
C9 counterexample: the claim says every call with `len(indices) != n`
fails fast.  But `Q_tensor(0, [7])` has `len(indices) = 1 ≠ 0` and
returns the value `1` (`some`, not an error).
-/
theorem Qtensor_no_validation_cex :
    ([7] : List ℕ).length ≠ 0 ∧ Qtensor 0 [7] = some [monOne] :=
  ⟨by decide, rfl⟩

/--
C9 amended: `Q_tensor` and `nth_derivative_1_over_r` do not validate
their arguments.  A call with `len(indices) ≠ n` can return an ordinary
value: at `n = 0` both ignore `indices` entirely and return `1` resp.
`1/r0` (errors arise only incidentally, when a trace term accesses an
index position beyond `len(indices)`).
-/
theorem Qtensor_no_validation_amended (idx idx' : List ℕ)
    (_h : idx ≠ []) (_h' : idx' ≠ []) :
    Qtensor 0 idx = some [monOne] ∧ nthDeriv 0 idx' = some [⟨1, -1, 0, []⟩] :=
  ⟨rfl, rfl⟩

/-- Witness for the amended C9 at `indices = [3]`. -/
theorem Qtensor_no_validation_amended_witness :
    ([3] : List ℕ) ≠ [] ∧ Qtensor 0 [3] = some [monOne] :=
  ⟨by decide, (Qtensor_no_validation_amended [3] [3] (by decide) (by decide)).1⟩

/-! ## Claim C8: the contraction engine on pattern-free expressions -/

/-- No two factors of the monomial match the rule `hit` (in either
processing order relevant to the scan). -/
def noHits (hit : Atom → Atom → Option Eff) (l : List Atom) : Prop :=
  l.Pairwise (fun a b => hit a b = none)

/-- `delta(i,i)` test. -/
def isDiag : Atom → Bool
  | Atom.delta i j => i == j
  | _ => false

/-- A monomial's factors contain none of the recognised rewrite patterns
of the rule catalogue in `contract_indices`. -/
def MonPatternFree (l : List Atom) : Prop :=
  noHits xaxaHit l ∧ noHits xanHit l ∧ noHits fxfxHit l ∧ noHits fxnHit l ∧
    noHits nnHit l ∧ noHits dxaHit l ∧ noHits dnvHit l ∧ ∀ a ∈ l, isDiag a = false

/-- An expression containing none of the recognised rewrite patterns. -/
def PatternFree (r : R) : Prop := ∀ m ∈ r, MonPatternFree m.atoms

instance (hit : Atom → Atom → Option Eff) (l : List Atom) :
    Decidable (noHits hit l) := by
  unfold noHits; exact inferInstance

instance (l : List Atom) : Decidable (MonPatternFree l) := by
  unfold MonPatternFree; exact inferInstance

instance (r : R) : Decidable (PatternFree r) := by
  unfold PatternFree; exact inferInstance

theorem findHit_none {hit : Atom → Atom → Option Eff} {a : Atom} {l : List Atom}
    (h : ∀ b ∈ l, hit a b = none) : findHit hit a l = none := by
  induction l with
  | nil => rfl
  | cons b t ih =>
    unfold findHit
    rw [h b (by simp), ih (fun x hx => h x (by simp [hx]))]
    rfl

theorem scanFuel_noHits {hit : Atom → Atom → Option Eff} {l : List Atom}
    (h : noHits hit l) (fuel : ℕ) : scanFuel hit fuel l = (l, [], 1, 0, 0) := by
  induction l generalizing fuel with
  | nil => cases fuel <;> rfl
  | cons a t ih =>
    cases fuel with
    | zero => rfl
    | succ fuel =>
      obtain ⟨h1, h2⟩ := List.pairwise_cons.1 h
      unfold scanFuel
      rw [findHit_none h1, ih h2 fuel]

theorem runRule_noHits {hit : Atom → Atom → Option Eff} {m : Mon}
    (h : noHits hit m.atoms) : runRule hit m = m := by
  obtain ⟨c, r0e, ra0e, atoms⟩ := m
  simp [runRule, scanFuel_noHits h]

theorem traceScan_diagFree {l : List Atom} (h : ∀ a ∈ l, isDiag a = false) :
    traceScan l = (l, 1) := by
  induction l with
  | nil => rfl
  | cons a t ih =>
    unfold traceScan
    rw [ih (fun x hx => h x (by simp [hx]))]
    match a, h a (by simp) with
    | Atom.xa i, _ => rfl
    | Atom.fx i, _ => rfl
    | Atom.nv i, _ => rfl
    | Atom.dotv, _ => rfl
    | Atom.delta i j, hd =>
      simp only [isDiag, beq_eq_false_iff_ne, ne_eq] at hd
      simp [hd]

theorem contractMon_patternFree {m : Mon} (h : MonPatternFree m.atoms) :
    contractMon m = m := by
  obtain ⟨e1, e2, e3, e4, e5, e6, e7, e8⟩ := h
  have r1 := runRule_noHits (m := m) e1
  simp only [contractMon, r1]
  rw [runRule_noHits e2, runRule_noHits e2, runRule_noHits e3,
    runRule_noHits e4, runRule_noHits e4, runRule_noHits e5,
    runRule_noHits e6, runRule_noHits e6, runRule_noHits e7, runRule_noHits e7]
  rw [traceScan_diagFree e8]
  obtain ⟨c, r0e, ra0e, atoms⟩ := m
  simp

/-- C8 helper: `contract_indices` returns a pattern-free expression
unchanged. -/
theorem contract_patternFree {r : R} (h : PatternFree r) : contract r = r := by
  induction r with
  | nil => rfl
  | cons m t ih =>
    simp only [contract, List.map_cons]
    rw [contractMon_patternFree (h m (by simp))]
    have := ih (fun x hx => h x (by simp [hx]))
    simp only [contract] at this
    rw [this]

/--
C8: a fixed point of `contract_indices` is sent to itself again by a
further application, and an expression containing none of the recognised
rewrite patterns is returned unchanged (the engine is a total function:
it raises no exception).
-/
theorem contract_fixed_point_properties :
    (∀ e : R, contract e = e → contract (contract e) = e) ∧
    (∀ e : R, PatternFree e → contract e = e) :=
  ⟨fun _ h => by rw [h, h], fun _ h => contract_patternFree h⟩

/-- Witness for C8 on the pattern-free expression `2*delta(0,1)` (a fixed
point of the engine). -/
theorem contract_fixed_point_properties_witness :
    contract (contract ([⟨2, 0, 0, [Atom.delta 0 1]⟩] : R)) =
      ([⟨2, 0, 0, [Atom.delta 0 1]⟩] : R) ∧
    contract ([⟨2, 0, 0, [Atom.delta 0 1]⟩] : R) =
      ([⟨2, 0, 0, [Atom.delta 0 1]⟩] : R) :=
  ⟨contract_fixed_point_properties.1 _ (by decide),
   contract_fixed_point_properties.2 _ (by decide)⟩

/-! ## Relabelling

Renaming index labels along an injective map commutes with the
contraction engine and preserves canonical equality with zero; this lifts
concrete contraction computations to arbitrary labels. -/

/-- Rename the labels of an atom. -/
def mapLabel (ρ : ℕ → ℕ) : Atom → Atom
  | Atom.xa i => Atom.xa (ρ i)
  | Atom.fx i => Atom.fx (ρ i)
  | Atom.nv i => Atom.nv (ρ i)
  | Atom.delta i j => Atom.delta (ρ i) (ρ j)
  | Atom.dotv => Atom.dotv

/-- Rename the labels of a monomial. -/
def mapMonL (ρ : ℕ → ℕ) (m : Mon) : Mon :=
  { m with atoms := m.atoms.map (mapLabel ρ) }

/-- Rename the labels of an expression. -/
def mapRL (ρ : ℕ → ℕ) (r : R) : R := r.map (mapMonL ρ)

/-- Rename the labels in a rule effect. -/
def effMapL (ρ : ℕ → ℕ) (e : Eff) : Eff :=
  { e with add := e.add.map (mapLabel ρ) }

section Relabel

variable {ρ : ℕ → ℕ}

/-- Commutation of a rule's matcher with injective relabelling. -/
def HitComm (ρ : ℕ → ℕ) (hit : Atom → Atom → Option Eff) : Prop :=
  ∀ a b, hit (mapLabel ρ a) (mapLabel ρ b) = (hit a b).map (effMapL ρ)

theorem xaxaHit_mapL (hinj : Function.Injective ρ) : HitComm ρ xaxaHit := by
  intro a b
  cases a <;> cases b <;> simp [xaxaHit, mapLabel, effMapL, hinj.eq_iff] <;>
    split_ifs <;> simp [effMapL]

theorem xanHit_mapL (hinj : Function.Injective ρ) : HitComm ρ xanHit := by
  intro a b
  cases a <;> cases b <;> simp [xanHit, mapLabel, effMapL, hinj.eq_iff] <;>
    split_ifs <;> simp [effMapL, mapLabel]

theorem fxfxHit_mapL (hinj : Function.Injective ρ) : HitComm ρ fxfxHit := by
  intro a b
  cases a <;> cases b <;> simp [fxfxHit, mapLabel, effMapL, hinj.eq_iff] <;>
    split_ifs <;> simp [effMapL]

theorem fxnHit_mapL (hinj : Function.Injective ρ) : HitComm ρ fxnHit := by
  intro a b
  cases a <;> cases b <;> simp [fxnHit, mapLabel, effMapL, hinj.eq_iff] <;>
    split_ifs <;> simp [effMapL]

theorem nnHit_mapL (hinj : Function.Injective ρ) : HitComm ρ nnHit := by
  intro a b
  cases a <;> cases b <;> simp [nnHit, mapLabel, effMapL, hinj.eq_iff] <;>
    split_ifs <;> simp [effMapL]

theorem dxaHit_mapL (hinj : Function.Injective ρ) : HitComm ρ dxaHit := by
  intro a b
  cases a <;> cases b <;> simp [dxaHit, mapLabel, effMapL, hinj.eq_iff] <;>
    split_ifs <;> simp [effMapL, mapLabel]

theorem dnvHit_mapL (hinj : Function.Injective ρ) : HitComm ρ dnvHit := by
  intro a b
  cases a <;> cases b <;> simp [dnvHit, mapLabel, effMapL, hinj.eq_iff] <;>
    split_ifs <;> simp [effMapL, mapLabel]

theorem findHit_mapL {hit : Atom → Atom → Option Eff} (hc : HitComm ρ hit)
    (a : Atom) (l : List Atom) :
    findHit hit (mapLabel ρ a) (l.map (mapLabel ρ)) =
      (findHit hit a l).map (fun er => (effMapL ρ er.1, er.2.map (mapLabel ρ))) := by
  induction l with
  | nil => rfl
  | cons b t ih =>
    simp only [List.map_cons, findHit, hc a b]
    cases hab : hit a b with
    | some e => rfl
    | none =>
      simp only [Option.map_none']
      rw [ih]
      cases findHit hit a t <;> rfl

theorem scanFuel_mapL {hit : Atom → Atom → Option Eff} (hc : HitComm ρ hit)
    (fuel : ℕ) (l : List Atom) :
    scanFuel hit fuel (l.map (mapLabel ρ)) =
      ((scanFuel hit fuel l).1.map (mapLabel ρ),
        (scanFuel hit fuel l).2.1.map (mapLabel ρ),
        (scanFuel hit fuel l).2.2.1, (scanFuel hit fuel l).2.2.2.1,
        (scanFuel hit fuel l).2.2.2.2) := by
  induction fuel generalizing l with
  | zero => rfl
  | succ fuel ih =>
    cases l with
    | nil => rfl
    | cons a t =>
      simp only [List.map_cons, scanFuel, findHit_mapL hc]
      cases hf : findHit hit a t with
      | some er =>
        obtain ⟨e, rest⟩ := er
        simp only [Option.map_some']
        rw [ih rest]
        simp [effMapL]
      | none =>
        simp only [Option.map_none']
        rw [ih t]
        simp

theorem runRule_mapL {hit : Atom → Atom → Option Eff} (hc : HitComm ρ hit)
    (m : Mon) : runRule hit (mapMonL ρ m) = mapMonL ρ (runRule hit m) := by
  obtain ⟨c, r0e, ra0e, atoms⟩ := m
  simp only [runRule, mapMonL, List.length_map, scanFuel_mapL hc]
  simp [List.map_append]

theorem traceScan_mapL (hinj : Function.Injective ρ) (l : List Atom) :
    traceScan (l.map (mapLabel ρ)) =
      ((traceScan l).1.map (mapLabel ρ), (traceScan l).2) := by
  induction l with
  | nil => rfl
  | cons a t ih =>
    cases a with
    | delta i j =>
      simp only [List.map_cons, traceScan, mapLabel, ih]
      by_cases hij : i = j
      · simp [hij]
      · rw [if_neg (fun h => hij (hinj h)), if_neg hij]
        simp [mapLabel]
    | xa i => simp only [List.map_cons, traceScan, mapLabel, ih]
    | fx i => simp only [List.map_cons, traceScan, mapLabel, ih]
    | nv i => simp only [List.map_cons, traceScan, mapLabel, ih]
    | dotv => simp only [List.map_cons, traceScan, mapLabel, ih]

theorem contractMon_mapL (hinj : Function.Injective ρ) (m : Mon) :
    contractMon (mapMonL ρ m) = mapMonL ρ (contractMon m) := by
  simp only [contractMon,
    runRule_mapL (xaxaHit_mapL hinj), runRule_mapL (xanHit_mapL hinj),
    runRule_mapL (fxfxHit_mapL hinj), runRule_mapL (fxnHit_mapL hinj),
    runRule_mapL (nnHit_mapL hinj), runRule_mapL (dxaHit_mapL hinj),
    runRule_mapL (dnvHit_mapL hinj)]
  generalize runRule dnvHit _ = m7
  obtain ⟨c, r0e, ra0e, atoms⟩ := m7
  simp [mapMonL, traceScan_mapL hinj]

theorem contract_mapRL (hinj : Function.Injective ρ) (r : R) :
    contract (mapRL ρ r) = mapRL ρ (contract r) := by
  simp only [contract, mapRL, List.map_map]
  apply List.map_congr_left
  intro m _
  exact contractMon_mapL hinj m

end Relabel

/-! ## Canonical equality: zero is preserved by relabelling -/

theorem sortAtoms_perm (l : List Atom) : List.Perm (sortAtoms l) l :=
  List.perm_insertionSort _ l

theorem sortAtoms_congr {l l' : List Atom} (h : List.Perm l l') :
    sortAtoms l = sortAtoms l' :=
  List.eq_of_perm_of_sorted
    ((sortAtoms_perm l).trans (h.trans (sortAtoms_perm l').symm))
    (List.sorted_insertionSort _ l) (List.sorted_insertionSort _ l')

theorem mkey_atoms_perm {m m' : Mon} (h : mkey m = mkey m') :
    List.Perm m.atoms m'.atoms := by
  have h3 : sortAtoms m.atoms = sortAtoms m'.atoms :=
    congrArg (fun k => k.2.2) h
  exact (sortAtoms_perm m.atoms).symm.trans (h3 ▸ sortAtoms_perm m'.atoms)

theorem mkey_mapMonL_congr (ρ : ℕ → ℕ) {m m' : Mon}
    (h : mkey m = mkey m') : mkey (mapMonL ρ m) = mkey (mapMonL ρ m') := by
  have hperm := mkey_atoms_perm h
  have h1 : m.r0e = m'.r0e := congrArg (fun k => k.1) h
  have h2 : m.ra0e = m'.ra0e := congrArg (fun k => k.2.1) h
  show (m.r0e, m.ra0e, sortAtoms (m.atoms.map (mapLabel ρ))) =
    (m'.r0e, m'.ra0e, sortAtoms (m'.atoms.map (mapLabel ρ)))
  rw [h1, h2, sortAtoms_congr (hperm.map (mapLabel ρ))]

/-- Summing the coefficients of any key-determined selection of monomials
from a canonically-zero expression gives zero. -/
theorem sum_filter_zero_of_eqR_nil (q : Mon → Bool)
    (hq : ∀ m m' : Mon, mkey m = mkey m' → q m = q m') :
    ∀ (r : R), eqR r [] → ((r.filter q).map Mon.coeff).sum = 0 := by
  have key : ∀ (N : ℕ) (r : R), r.length ≤ N → eqR r [] →
      ((r.filter q).map Mon.coeff).sum = 0 := by
    intro N
    induction N with
    | zero =>
      intro r hlen _
      have hr : r = [] := List.length_eq_zero.1 (Nat.le_zero.1 hlen)
      subst hr; rfl
    | succ N ih =>
      intro r hlen h0
      cases r with
      | nil => rfl
      | cons m t =>
        have hperm : List.Perm ((m :: t).filter (fun x => decide (mkey x = mkey m)) ++
            (m :: t).filter (fun x => !(decide (mkey x = mkey m)))) (m :: t) :=
          List.filter_append_perm _ _
        have hsum : (((m :: t).filter q).map Mon.coeff).sum =
            ((((m :: t).filter (fun x => decide (mkey x = mkey m))).filter q).map
              Mon.coeff).sum +
            ((((m :: t).filter (fun x => !(decide (mkey x = mkey m)))).filter q).map
              Mon.coeff).sum := by
          have hp2 := hperm.filter q
          rw [← ((hp2.map Mon.coeff).sum_eq), List.filter_append, List.map_append,
            List.sum_append]
        have hAmem : ∀ x ∈ (m :: t).filter (fun x => decide (mkey x = mkey m)),
            mkey x = mkey m := by
          intro x hx
          have := List.of_mem_filter hx
          simpa using this
        have hA : ((((m :: t).filter (fun x => decide (mkey x = mkey m))).filter q).map
            Mon.coeff).sum = 0 := by
          cases hqm : q m with
          | true =>
            have hfq : ((m :: t).filter (fun x => decide (mkey x = mkey m))).filter q =
                (m :: t).filter (fun x => decide (mkey x = mkey m)) := by
              apply List.filter_eq_self.2
              intro x hx
              rw [hq x m (hAmem x hx), hqm]
            rw [hfq]
            have := h0 (mkey m)
            simpa [coeffOf] using this
          | false =>
            have hfq : ((m :: t).filter (fun x => decide (mkey x = mkey m))).filter q =
                [] := by
              apply List.filter_eq_nil_iff.2
              intro x hx
              rw [hq x m (hAmem x hx), hqm]
              simp
            rw [hfq]
            rfl
        have hBzero : eqR ((m :: t).filter (fun x => !(decide (mkey x = mkey m)))) [] := by
          intro K'
          unfold coeffOf
          rw [List.filter_filter]
          by_cases hKK : K' = mkey m
          · subst hKK
            have hnil : ((m :: t).filter
                (fun a => decide (mkey a = mkey m) && !(decide (mkey a = mkey m)))) = [] := by
              apply List.filter_eq_nil_iff.2
              intro x _
              by_cases hx : mkey x = mkey m <;> simp [hx]
            rw [hnil]
            rfl
          · have hfe : ((m :: t).filter
                (fun a => decide (mkey a = K') && !(decide (mkey a = mkey m)))) =
                ((m :: t).filter (fun a => decide (mkey a = K'))) := by
              apply List.filter_congr
              intro x _
              by_cases hx : mkey x = K'
              · simp [hx, hKK]
              · simp [hx]
            rw [hfe]
            have := h0 K'
            simpa [coeffOf] using this
        have hBlen : ((m :: t).filter (fun x => !(decide (mkey x = mkey m)))).length ≤ N := by
          rw [List.filter_cons_of_neg (by simp)]
          have := List.length_filter_le (fun x => !(decide (mkey x = mkey m))) t
          simp only [List.length_cons] at hlen
          omega
        have hB := ih _ hBlen hBzero
        rw [hsum, hA, hB]
        rfl
  intro r
  exact key r.length r le_rfl

/-- Relabelling preserves canonical equality with zero. -/
theorem mapRL_eqR_nil (ρ : ℕ → ℕ) {r : R} (h : eqR r []) :
    eqR (mapRL ρ r) [] := by
  intro key
  have hre : coeffOf (mapRL ρ r) key =
      ((r.filter (fun m => decide (mkey (mapMonL ρ m) = key))).map Mon.coeff).sum := by
    unfold coeffOf mapRL
    rw [List.filter_map, List.map_map]
    rfl
  rw [hre]
  rw [show coeffOf ([] : R) key = 0 from rfl]
  exact sum_filter_zero_of_eqR_nil _
    (fun m m' hmm' => by rw [mkey_mapMonL_congr ρ hmm']) r h

/-! ## Claim C3: tracelessness under the contraction engine -/

/--
C3 counterexample: take `n = 3`, the distinct labels `[0, 1, 2]`, and set
the labels at positions 0 and 1 equal (shared label 0, giving indices
`[0, 0, 2]`).  Iterating `contract_indices` reaches a fixed point after
one pass, and that fixed point is NOT the zero expression: the terms
`delta(0,2)*xa(0)*ra0^2` survive because the rule catalogue only
contracts the second slot of a delta.
-/
theorem Q_traceless_contraction_cex :
    contract (contract ((Qtensor 3 [0, 0, 2]).getD [])) =
      contract ((Qtensor 3 [0, 0, 2]).getD []) ∧
    ¬ eqR (contract ((Qtensor 3 [0, 0, 2]).getD [])) [] ∧
    Qtensor 3 [0, 0, 2] ≠ none := by decide

/--
C3 amended: the fixed point of `contract_indices` on `Q_tensor` with two
equal labels is the (canonically) zero expression for `n = 2` (any shared
label), and for `n = 3` when the LAST two positions share a label; for
`n = 3` with the shared label in position 0 the fixed point is nonzero
(see the counterexample), because `delta(s,k)*xa(s)` matches no rule.
-/
theorem Q_traceless_contraction_amended :
    (∀ s : ℕ,
      contract (contract ((Qtensor 2 [s, s]).getD [])) =
        contract ((Qtensor 2 [s, s]).getD []) ∧
      eqR (contract ((Qtensor 2 [s, s]).getD [])) []) ∧
    (∀ i s : ℕ, i ≠ s →
      contract (contract ((Qtensor 3 [i, s, s]).getD [])) =
        contract ((Qtensor 3 [i, s, s]).getD []) ∧
      eqR (contract ((Qtensor 3 [i, s, s]).getD [])) []) := by
  constructor
  · intro s
    have hmap : (Qtensor 2 [s, s]).getD [] =
        mapRL (fun t => s + t) ((Qtensor 2 [0, 0]).getD []) := rfl
    have hinj : Function.Injective (fun t : ℕ => s + t) := fun a b h => by
      simp only [] at h
      omega
    rw [hmap, contract_mapRL hinj, contract_mapRL hinj]
    constructor
    · rw [show contract (contract ((Qtensor 2 [0, 0]).getD [])) =
          contract ((Qtensor 2 [0, 0]).getD []) by decide]
    · exact mapRL_eqR_nil _ (by decide)
  · intro i s hne
    have hmap : (Qtensor 3 [i, s, s]).getD [] =
        mapRL (fun t : ℕ => match t with
          | 0 => i
          | 1 => s
          | (t + 2) => i + s + t + 2) ((Qtensor 3 [0, 1, 1]).getD []) := rfl
    have hinj : Function.Injective (fun t : ℕ => match t with
        | 0 => i
        | 1 => s
        | (t + 2) => i + s + t + 2) := by
      intro a b hab
      rcases a with _ | _ | a <;> rcases b with _ | _ | b <;>
        simp only [] at hab ⊢ <;>
        first
          | rfl
          | omega
          | (exact absurd hab hne)
          | (exact absurd hab.symm hne)
    rw [hmap, contract_mapRL hinj, contract_mapRL hinj]
    constructor
    · rw [show contract (contract ((Qtensor 3 [0, 1, 1]).getD [])) =
          contract ((Qtensor 3 [0, 1, 1]).getD []) by decide]
    · exact mapRL_eqR_nil _ (by decide)

/-- Witness for the amended C3 at shared label 4 (`n = 2`) and at labels
`i = 0`, `s = 1` (`n = 3`). -/
theorem Q_traceless_contraction_amended_witness :
    ((0 : ℕ) ≠ 1) ∧
    eqR (contract ((Qtensor 2 [4, 4]).getD [])) [] ∧
    eqR (contract ((Qtensor 3 [0, 1, 1]).getD [])) [] :=
  ⟨by decide, (Q_traceless_contraction_amended.1 4).2,
    (Q_traceless_contraction_amended.2 0 1 (by decide)).2⟩

/-! ## Invariants of the pairing generator -/

theorem dedupAux_subset (seen : List (List (ℕ × ℕ))) :
    ∀ l P, P ∈ dedupAux seen l → P ∈ l := by
  intro l
  induction l generalizing seen with
  | nil => intro P h; simp [dedupAux] at h
  | cons Q t ih =>
    intro P h
    rw [dedupAux] at h
    by_cases hm : normKey Q ∈ seen
    · rw [if_pos hm] at h
      exact List.mem_cons_of_mem _ (ih seen P h)
    · rw [if_neg hm] at h
      rcases List.mem_cons.1 h with rfl | h2
      · exact List.mem_cons_self _ _
      · exact List.mem_cons_of_mem _ (ih _ P h2)

theorem remainingList_getD_mem {n i j a : ℕ}
    (ha : a < (remainingList n i j).length) :
    (remainingList n i j).getD a 0 ∈ remainingList n i j := by
  rw [List.getD_eq_getElem _ 0 ha]
  exact List.getElem_mem ha

theorem remainingList_getD_lt {n i j a b : ℕ} (hab : a < b)
    (hb : b < (remainingList n i j).length) :
    (remainingList n i j).getD a 0 < (remainingList n i j).getD b 0 := by
  have ha : a < (remainingList n i j).length := lt_trans hab hb
  rw [List.getD_eq_getElem _ 0 ha, List.getD_eq_getElem _ 0 hb]
  exact List.pairwise_iff_get.1 (remainingList_sorted n i j) ⟨a, ha⟩ ⟨b, hb⟩ hab

theorem remainingList_getD_inj {n i j a b : ℕ}
    (ha : a < (remainingList n i j).length)
    (hb : b < (remainingList n i j).length)
    (h : (remainingList n i j).getD a 0 = (remainingList n i j).getD b 0) :
    a = b := by
  rcases lt_trichotomy a b with hlt | heq | hgt
  · exact absurd h (Nat.ne_of_lt (remainingList_getD_lt hlt hb))
  · exact heq
  · exact absurd h.symm (Nat.ne_of_lt (remainingList_getD_lt hgt ha))

theorem flatPairs_mapBack (rem : List ℕ) (S : List (ℕ × ℕ)) :
    (mapBack rem S).flatMap (fun p => [p.1, p.2]) =
      (S.flatMap (fun p => [p.1, p.2])).map (fun a => rem.getD a 0) := by
  induction S with
  | nil => rfl
  | cons p t ih =>
    simp only [mapBack] at ih ⊢
    rw [List.map_cons, List.flatMap_cons, List.flatMap_cons, List.map_append, ih]
    rfl

theorem mem_flatPairs {S : List (ℕ × ℕ)} {a : ℕ} :
    a ∈ S.flatMap (fun p => [p.1, p.2]) ↔ ∃ p ∈ S, a = p.1 ∨ a = p.2 := by
  simp [List.mem_flatMap]

/-- Structural invariant of `_generate_k_pairings(n, k)`: every returned
pairing has exactly `k` pairs, each pair is increasing with entries below
`n`, and all `2k` entries are distinct. -/
theorem genPairings_invariant :
    ∀ k n P, P ∈ genPairings n k →
      P.length = k ∧ (∀ p ∈ P, p.1 < p.2 ∧ p.2 < n) ∧
        (P.flatMap (fun p => [p.1, p.2])).Nodup := by
  intro k
  induction k with
  | zero =>
    intro n P hP
    simp only [genPairings, List.mem_singleton] at hP
    subst hP
    simp
  | succ k ih =>
    intro n P hP
    rw [genPairings] at hP
    by_cases hk : k = 0
    · subst hk
      rw [if_pos rfl] at hP
      obtain ⟨p, hp, rfl⟩ := List.mem_map.1 hP
      obtain ⟨i, j⟩ := p
      have hij := mem_allPairs.1 hp
      refine ⟨rfl, ?_, ?_⟩
      · intro q hq
        rw [List.mem_singleton] at hq
        subst hq
        exact hij
      · simp only [List.flatMap_cons, List.flatMap_nil, List.append_nil]
        simp [Nat.ne_of_lt hij.1]
    · rw [if_neg hk] at hP
      have hP' := dedupAux_subset [] _ P hP
      simp only [List.mem_flatMap] at hP'
      obtain ⟨p, hpmem, hPin⟩ := hP'
      obtain ⟨i, j⟩ := p
      have hij := mem_allPairs.1 hpmem
      by_cases hg : 2 * k ≤ (remainingList n i j).length
      swap
      · rw [if_neg hg] at hPin
        simp at hPin
      rw [if_pos hg] at hPin
      obtain ⟨S, hS, rfl⟩ := List.mem_map.1 hPin
      obtain ⟨hSlen, hSb, hSnd⟩ := ih (n - 2) S hS
      have hrl : (remainingList n i j).length + 2 = n :=
        remainingList_length (lt_trans hij.1 hij.2) hij.2 (Nat.ne_of_lt hij.1)
      have hSb' : ∀ p ∈ S, p.1 < (remainingList n i j).length ∧
          p.2 < (remainingList n i j).length := by
        intro q hq
        have := hSb q hq
        omega
      refine ⟨by simp [mapBack, hSlen], ?_, ?_⟩
      · intro q hq
        rcases List.mem_cons.1 hq with rfl | hq2
        · exact hij
        · obtain ⟨⟨a, b⟩, hab, rfl⟩ := List.mem_map.1 hq2
          obtain ⟨hb1, hb2⟩ := hSb ⟨a, b⟩ hab
          obtain ⟨ha', hb'⟩ := hSb' ⟨a, b⟩ hab
          refine ⟨remainingList_getD_lt hb1 hb', ?_⟩
          have hmem := remainingList_getD_mem hb'
          exact (mem_remainingList.1 hmem).1
      · rw [List.flatMap_cons, flatPairs_mapBack]
        have hnotin : ∀ a ∈ (S.flatMap (fun p => [p.1, p.2])).map
            (fun a => (remainingList n i j).getD a 0), a ≠ i ∧ a ≠ j := by
          intro a ha
          obtain ⟨b, hb, rfl⟩ := List.mem_map.1 ha
          obtain ⟨q, hq, hbq⟩ := mem_flatPairs.1 hb
          have hblt : b < (remainingList n i j).length := by
            obtain ⟨h1, h2⟩ := hSb' q hq
            rcases hbq with rfl | rfl
            · exact h1
            · exact h2
          have := mem_remainingList.1 (remainingList_getD_mem hblt)
          exact ⟨this.2.1, this.2.2⟩
        have hmapnd : ((S.flatMap (fun p => [p.1, p.2])).map
            (fun a => (remainingList n i j).getD a 0)).Nodup := by
          apply hSnd.map_on
          intro x hx y hy hxy
          have hxlt : x < (remainingList n i j).length := by
            obtain ⟨q, hq, hbq⟩ := mem_flatPairs.1 hx
            obtain ⟨h1, h2⟩ := hSb' q hq
            rcases hbq with rfl | rfl
            · exact h1
            · exact h2
          have hylt : y < (remainingList n i j).length := by
            obtain ⟨q, hq, hbq⟩ := mem_flatPairs.1 hy
            obtain ⟨h1, h2⟩ := hSb' q hq
            rcases hbq with rfl | rfl
            · exact h1
            · exact h2
          exact remainingList_getD_inj hxlt hylt hxy
        show ([i, j] ++ _).Nodup
        rw [List.nodup_append]
        refine ⟨by simp [Nat.ne_of_lt hij.1], hmapnd, ?_⟩
        intro a ha hamem
        have := hnotin a hamem
        rcases (by simpa using ha : a = i ∨ a = j) with rfl | rfl
        · exact this.1 rfl
        · exact this.2 rfl

/-! ## Claim C1: the recursive derivative formula for n ≥ 3 -/

theorem get?_eq_some_getD {l : List ℕ} {p : ℕ} (h : p < l.length) :
    l.get? p = some (l.getD p 0) := by
  rw [List.get?_eq_get h, List.getD_eq_getElem l 0 h]
  rfl

theorem mapMO_eq_some {f : α → Option β} {g : α → β} :
    ∀ {l : List α}, (∀ a ∈ l, f a = some (g a)) → mapMO f l = some (l.map g) := by
  intro l
  induction l with
  | nil => intro _; rfl
  | cons a t ih =>
    intro h
    show (f a >>= fun b => mapMO f t >>= fun bs => some (b :: bs)) = _
    rw [h a (by simp), ih (fun x hx => h x (by simp [hx]))]
    rfl

/-- The total value of the per-pairing product when every accessed
position is in range: deltas for the pairs, vector atoms for the free
positions. -/
def pairingAtomsT (vec : ℕ → Atom) (idx : List ℕ) (n : ℕ)
    (P : List (ℕ × ℕ)) : List Atom :=
  P.map (fun p => Atom.delta (idx.getD p.1 0) (idx.getD p.2 0)) ++
    (freePositions n P).map (fun pos => vec (idx.getD pos 0))

theorem mem_freePositions {n : ℕ} {P : List (ℕ × ℕ)} {pos : ℕ}
    (h : pos ∈ freePositions n P) : pos < n := by
  unfold freePositions at h
  have := List.mem_filter.1 h
  simpa using this.1

theorem pairingAtoms_eq_some {vec : ℕ → Atom} {idx : List ℕ} {n : ℕ}
    {P : List (ℕ × ℕ)} (hlen : n ≤ idx.length)
    (hP : ∀ p ∈ P, p.1 < n ∧ p.2 < n) :
    pairingAtoms vec idx n P = some (pairingAtomsT vec idx n P) := by
  unfold pairingAtoms pairingAtomsT
  have hds : mapMO (fun p => do
      let a ← idx.get? p.1
      let b ← idx.get? p.2
      pure (Atom.delta a b)) P =
      some (P.map (fun p => Atom.delta (idx.getD p.1 0) (idx.getD p.2 0))) := by
    apply mapMO_eq_some
    intro p hp
    obtain ⟨h1, h2⟩ := hP p hp
    rw [get?_eq_some_getD (by omega), get?_eq_some_getD (by omega)]
    rfl
  have hxs : mapMO (fun pos => do
      let a ← idx.get? pos
      pure (vec a)) (freePositions n P) =
      some ((freePositions n P).map (fun pos => vec (idx.getD pos 0))) := by
    apply mapMO_eq_some
    intro pos hpos
    have := mem_freePositions hpos
    rw [get?_eq_some_getD (by omega)]
    rfl
  rw [hds]
  show (mapMO _ (freePositions n P) >>= _) = _
  rw [hxs]
  rfl

/--
The spec's numerator for the `n ≥ 3` derivative of `1/r`: the
double-factorial-weighted main product of field vectors MINUS the trace
sum built by the same pairing algorithm as `build_Q` (the same
`genPairings` and the same per-pairing delta/vector product), with the
field vector `x` in place of `xa`, `r0^(2k)` in place of `ra0^(2k)`, and
WITHOUT the alternating `(-1)^k` sign inside the trace sum.
-/
def specDerivNumerator (n : ℕ) (idx : List ℕ) : R :=
  ⟨(doubleFactorial (2 * n - 1) : ℤ), 0, 0, idx.map Atom.fx⟩ ::
    negR (((List.range (n / 2)).map (· + 1)).flatMap (fun k =>
      (genPairings n k).map (fun P =>
        ⟨(doubleFactorial (2 * n - 2 * k - 1) : ℤ), 2 * (k : ℤ), 0,
          pairingAtomsT Atom.fx idx n P⟩)))

/-- The spec's `n ≥ 3` derivative: `(-1)^n * numerator / r0^(2n+1)`. -/
def specDeriv (n : ℕ) (idx : List ℕ) : R :=
  (specDerivNumerator n idx).map (fun m =>
    ⟨(-1) ^ n * m.coeff, m.r0e - (2 * (n : ℤ) + 1), m.ra0e, m.atoms⟩)

/--
C1: for `n ≥ 3` and `n` distinct index labels,
`nth_derivative_1_over_r(n, indices)` returns `(-1)^n` times a numerator
divided by `r0^(2n+1)`, where the numerator is the double-factorial
weighted main product minus the trace sum built by the same pairing
algorithm as `build_Q` with the field vector and field magnitude
substituted and without the alternating `(-1)^k` sign (`specDeriv`).
-/
theorem nthDeriv_spec_formula (n : ℕ) (idx : List ℕ) (h3 : 3 ≤ n)
    (hlen : idx.length = n) (_hnd : idx.Nodup) :
    nthDeriv n idx = some (specDeriv n idx) := by
  rw [nthDeriv, if_neg (by omega), if_neg (by omega), if_neg (by omega)]
  have htrk : ∀ k ∈ (List.range (n / 2)).map (· + 1),
      derivTraceK n idx k = some ((genPairings n k).map (fun P =>
        ⟨(doubleFactorial (2 * n - 2 * k - 1) : ℤ), 2 * (k : ℤ), 0,
          pairingAtomsT Atom.fx idx n P⟩)) := by
    intro k hk
    obtain ⟨j, hj, rfl⟩ := List.mem_map.1 hk
    rw [List.mem_range] at hj
    unfold derivTraceK
    rw [if_neg (by omega)]
    have hmo : mapMO (pairingAtoms Atom.fx idx n) (genPairings n (j + 1)) =
        some ((genPairings n (j + 1)).map (pairingAtomsT Atom.fx idx n)) := by
      apply mapMO_eq_some
      intro P hPmem
      obtain ⟨_, hb, _⟩ := genPairings_invariant (j + 1) n P hPmem
      exact pairingAtoms_eq_some (by omega)
        (fun p hp => ⟨by have := hb p hp; omega, (hb p hp).2⟩)
    show (mapMO _ _ >>= _) = _
    rw [hmo]
    show some _ = some _
    congr 1
    rw [List.map_map]
    apply List.map_congr_left
    intro P _
    have hpos : (0 : ℤ) < 2 * (n : ℤ) - 2 * ((j + 1 : ℕ) : ℤ) - 1 := by
      push_cast
      omega
    have htn : (2 * (n : ℤ) - 2 * ((j + 1 : ℕ) : ℤ) - 1).toNat = 2 * n - 2 * (j + 1) - 1 := by
      push_cast
      omega
    simp only [Function.comp, if_pos hpos, htn]
  have htr : derivTraces n idx =
      some (((List.range (n / 2)).map (· + 1)).flatMap (fun k =>
        (genPairings n k).map (fun P =>
          ⟨(doubleFactorial (2 * n - 2 * k - 1) : ℤ), 2 * (k : ℤ), 0,
            pairingAtomsT Atom.fx idx n P⟩))) := by
    unfold derivTraces
    rw [mapMO_eq_some htrk]
    rfl
  have hnum : derivNumerator n idx = some (specDerivNumerator n idx) := by
    unfold derivNumerator
    rw [htr]
    rfl
  unfold recursiveDeriv
  rw [hnum]
  rfl

/-- Witness for C1 at `n = 3`, `indices = [0, 1, 2]`. -/
theorem nthDeriv_spec_formula_witness :
    3 ≤ 3 ∧ ([0, 1, 2] : List ℕ).length = 3 ∧ ([0, 1, 2] : List ℕ).Nodup ∧
    nthDeriv 3 [0, 1, 2] = some (specDeriv 3 [0, 1, 2]) :=
  ⟨by decide, by decide, by decide,
    nthDeriv_spec_formula 3 [0, 1, 2] (by decide) (by decide) (by decide)⟩

/-! ## Canonical pairings and the characterisation of the generator -/

/-- A canonical `k`-pairing of the positions `0..n-1`: `k` increasing
pairs with entries below `n`, all `2k` entries distinct, sorted
lexicographically. -/
def IsCanon (n k : ℕ) (Q : List (ℕ × ℕ)) : Prop :=
  Q.length = k ∧ (∀ p ∈ Q, p.1 < p.2 ∧ p.2 < n) ∧
    (Q.flatMap (fun p => [p.1, p.2])).Nodup ∧ Q.Sorted pairLe

theorem flatPairs_length (S : List (ℕ × ℕ)) :
    (S.flatMap (fun p => [p.1, p.2])).length = 2 * S.length := by
  induction S with
  | nil => rfl
  | cons p t ih => simp [List.flatMap_cons, ih]; omega

theorem pairs_nodup_of_flat_nodup {S : List (ℕ × ℕ)}
    (h : (S.flatMap (fun p => [p.1, p.2])).Nodup) : S.Nodup := by
  induction S with
  | nil => exact List.nodup_nil
  | cons p t ih =>
    rw [List.flatMap_cons, List.nodup_append] at h
    obtain ⟨h1, h2, h3⟩ := h
    refine List.nodup_cons.2 ⟨?_, ih h2⟩
    intro hmem
    exact h3 (show p.1 ∈ [p.1, p.2] by simp)
      (mem_flatPairs.2 ⟨p, hmem, Or.inl rfl⟩)

theorem isCanon_two_mul_le {n k : ℕ} {Q : List (ℕ × ℕ)}
    (h : IsCanon n k Q) : 2 * k ≤ n := by
  obtain ⟨hlen, hb, hnd, _⟩ := h
  have hflen : (Q.flatMap (fun p => [p.1, p.2])).length = 2 * k := by
    rw [flatPairs_length, hlen]
  have hsub : (Q.flatMap (fun p => [p.1, p.2])).toFinset ⊆ Finset.range n := by
    intro a ha
    rw [List.mem_toFinset] at ha
    obtain ⟨p, hp, hap⟩ := mem_flatPairs.1 ha
    have := hb p hp
    rw [Finset.mem_range]
    rcases hap with rfl | rfl <;> omega
  have := Finset.card_le_card hsub
  rw [List.toFinset_card_of_nodup hnd, Finset.card_range] at this
  omega

theorem map_sortPair_eq_self {P : List (ℕ × ℕ)}
    (h : ∀ p ∈ P, p.1 < p.2) : P.map sortPair = P := by
  have he : P.map sortPair = P.map id := List.map_congr_left (fun p hp => by
    unfold sortPair
    rw [if_pos (le_of_lt (h p hp))]
    rfl)
  rw [he, List.map_id]

theorem normKey_perm (P : List (ℕ × ℕ)) :
    List.Perm (normKey P) (P.map sortPair) :=
  List.perm_insertionSort pairLe (P.map sortPair)

theorem normKey_congr {P P' : List (ℕ × ℕ)} (h : List.Perm P P') :
    normKey P = normKey P' :=
  List.eq_of_perm_of_sorted
    ((normKey_perm P).trans ((h.map sortPair).trans (normKey_perm P').symm))
    (List.sorted_insertionSort pairLe (P.map sortPair))
    (List.sorted_insertionSort pairLe (P'.map sortPair))

theorem normKey_sorted (P : List (ℕ × ℕ)) : (normKey P).Sorted pairLe :=
  List.sorted_insertionSort pairLe (P.map sortPair)

theorem normKey_perm_self {P : List (ℕ × ℕ)} (h : ∀ p ∈ P, p.1 < p.2) :
    List.Perm (normKey P) P := by
  have := normKey_perm P
  rwa [map_sortPair_eq_self h] at this

theorem normKey_eq_self {Q : List (ℕ × ℕ)} (hb : ∀ p ∈ Q, p.1 < p.2)
    (hs : Q.Sorted pairLe) : normKey Q = Q := by
  unfold normKey
  rw [map_sortPair_eq_self hb]
  exact List.Sorted.insertionSort_eq hs

theorem isCanon_normKey {n k : ℕ} {P : List (ℕ × ℕ)} (hlen : P.length = k)
    (hb : ∀ p ∈ P, p.1 < p.2 ∧ p.2 < n)
    (hnd : (P.flatMap (fun p => [p.1, p.2])).Nodup) :
    IsCanon n k (normKey P) := by
  have hperm : List.Perm (normKey P) P := normKey_perm_self (fun p hp => (hb p hp).1)
  refine ⟨hperm.length_eq.trans hlen, ?_, ?_, normKey_sorted P⟩
  · intro p hp
    exact hb p (hperm.mem_iff.1 hp)
  · exact (List.Perm.flatMap_right (fun p => [p.1, p.2]) hperm).nodup_iff.2 hnd

theorem normKey_of_mem_genPairings {n k : ℕ} {P : List (ℕ × ℕ)}
    (h : P ∈ genPairings n k) : IsCanon n k (normKey P) := by
  obtain ⟨h1, h2, h3⟩ := genPairings_invariant k n P h
  exact isCanon_normKey h1 h2 h3

/-! ### The duplicate filter -/

theorem dedupAux_keys_nodup :
    ∀ (l : List (List (ℕ × ℕ))) (seen : List (List (ℕ × ℕ))),
      ((dedupAux seen l).map normKey).Nodup ∧
        ∀ K ∈ (dedupAux seen l).map normKey, K ∉ seen := by
  intro l
  induction l with
  | nil => intro seen; exact ⟨List.nodup_nil, by simp [dedupAux]⟩
  | cons P t ih =>
    intro seen
    rw [dedupAux]
    by_cases hm : normKey P ∈ seen
    · rw [if_pos hm]
      exact ih seen
    · rw [if_neg hm]
      obtain ⟨ihn, ihs⟩ := ih (normKey P :: seen)
      constructor
      · rw [List.map_cons, List.nodup_cons]
        exact ⟨fun hmem => ihs _ hmem (by simp), ihn⟩
      · intro K hK
        rw [List.map_cons, List.mem_cons] at hK
        rcases hK with rfl | hK
        · exact hm
        · intro hKseen
          exact ihs K hK (by simp [hKseen])

theorem dedupAux_keys_mem :
    ∀ (l : List (List (ℕ × ℕ))) (seen : List (List (ℕ × ℕ))) (K : List (ℕ × ℕ)),
      K ∈ (dedupAux seen l).map normKey ↔ K ∈ l.map normKey ∧ K ∉ seen := by
  intro l
  induction l with
  | nil => intro seen K; simp [dedupAux]
  | cons P t ih =>
    intro seen K
    rw [dedupAux]
    by_cases hm : normKey P ∈ seen
    · rw [if_pos hm, ih]
      simp only [List.map_cons, List.mem_cons]
      constructor
      · rintro ⟨h1, h2⟩
        exact ⟨Or.inr h1, h2⟩
      · rintro ⟨h1 | h1, h2⟩
        · subst h1
          exact absurd hm h2
        · exact ⟨h1, h2⟩
    · rw [if_neg hm]
      simp only [List.map_cons, List.mem_cons, ih]
      constructor
      · rintro (rfl | ⟨h1, h2⟩)
        · exact ⟨Or.inl rfl, hm⟩
        · exact ⟨Or.inr h1, fun hs => h2 (by simp [hs])⟩
      · rintro ⟨rfl | h1, h2⟩
        · exact Or.inl rfl
        · by_cases hKP : K = normKey P
          · exact Or.inl hKP
          · exact Or.inr ⟨h1, by simp [h2, hKP]⟩

theorem dedupAux_length (l : List (List (ℕ × ℕ))) :
    (dedupAux [] l).length = (l.map normKey).toFinset.card := by
  have hnd := (dedupAux_keys_nodup l []).1
  have hmem : ∀ K, K ∈ (dedupAux [] l).map normKey ↔ K ∈ l.map normKey := by
    intro K
    rw [dedupAux_keys_mem]
    simp
  have hfin : ((dedupAux [] l).map normKey).toFinset = (l.map normKey).toFinset := by
    ext K
    simp only [List.mem_toFinset]
    exact hmem K
  calc (dedupAux [] l).length
      = ((dedupAux [] l).map normKey).length := (List.length_map _ _).symm
    _ = ((dedupAux [] l).map normKey).toFinset.card :=
        (List.toFinset_card_of_nodup hnd).symm
    _ = (l.map normKey).toFinset.card := by rw [hfin]

theorem normKey_singleton {p : ℕ × ℕ} (h : p.1 ≤ p.2) : normKey [p] = [p] := by
  unfold normKey sortPair
  rw [List.map_singleton, if_pos h]
  rfl

/-- The pre-deduplication list built in the `k ≥ 2` branch of
`_generate_k_pairings(n, k+1)` (`result` in the source). -/
def rawPairings (n k : ℕ) : List (List (ℕ × ℕ)) :=
  (allPairs n).flatMap (fun p =>
    let rem := remainingList n p.1 p.2
    if 2 * k ≤ rem.length then
      (genPairings (n - 2) k).map (fun S => p :: mapBack rem S)
    else [])

theorem genPairings_eq_dedup_raw {n k : ℕ} (hk : k ≠ 0) :
    genPairings n (k + 1) = dedupAux [] (rawPairings n k) := by
  rw [genPairings, if_neg hk]
  rfl

theorem genPairings_keys_nodup : ∀ (k n : ℕ), ((genPairings n k).map normKey).Nodup := by
  intro k n
  match k with
  | 0 => simp [genPairings, normKey]
  | 1 =>
    rw [genPairings, if_pos rfl, List.map_map]
    have he : (allPairs n).map (normKey ∘ fun p => [p]) = (allPairs n).map (fun p => [p]) := by
      apply List.map_congr_left
      intro p hp
      obtain ⟨i, j⟩ := p
      have := mem_allPairs.1 hp
      exact normKey_singleton (le_of_lt this.1)
    rw [he]
    exact (allPairs_nodup n).map (fun a b h => by simpa using h)
  | k + 2 =>
    rw [genPairings_eq_dedup_raw (Nat.succ_ne_zero k)]
    exact (dedupAux_keys_nodup _ []).1

theorem remainingList_getD_lt_iff {n i j a b : ℕ}
    (ha : a < (remainingList n i j).length) (hb : b < (remainingList n i j).length) :
    (remainingList n i j).getD a 0 < (remainingList n i j).getD b 0 ↔ a < b := by
  constructor
  · intro h
    rcases lt_trichotomy a b with hlt | rfl | hgt
    · exact hlt
    · omega
    · exact absurd (remainingList_getD_lt hgt ha) (by omega)
  · intro h
    exact remainingList_getD_lt h hb

theorem remainingList_getD_eq_iff {n i j a b : ℕ}
    (ha : a < (remainingList n i j).length) (hb : b < (remainingList n i j).length) :
    ((remainingList n i j).getD a 0 = (remainingList n i j).getD b 0) ↔ a = b := by
  constructor
  · exact remainingList_getD_inj ha hb
  · rintro rfl; rfl

theorem remainingList_pairLe_iff {n i j : ℕ} (p q : ℕ × ℕ)
    (hp1 : p.1 < (remainingList n i j).length) (hp2 : p.2 < (remainingList n i j).length)
    (hq1 : q.1 < (remainingList n i j).length) (hq2 : q.2 < (remainingList n i j).length) :
    pairLe p q ↔
      pairLe ((remainingList n i j).getD p.1 0, (remainingList n i j).getD p.2 0)
        ((remainingList n i j).getD q.1 0, (remainingList n i j).getD q.2 0) := by
  have hle : ∀ a b, a < (remainingList n i j).length → b < (remainingList n i j).length →
      ((remainingList n i j).getD a 0 ≤ (remainingList n i j).getD b 0 ↔ a ≤ b) := by
    intro a b ha hb
    rw [Nat.le_iff_lt_or_eq, Nat.le_iff_lt_or_eq, remainingList_getD_lt_iff ha hb,
      remainingList_getD_eq_iff ha hb]
  unfold pairLe
  rw [remainingList_getD_lt_iff hp1 hq1, remainingList_getD_eq_iff hp1 hq1,
    hle p.2 q.2 hp2 hq2]

/-- Reindexing a bounded sub-pairing along `remaining` commutes with the
normalisation. -/
theorem normKey_mapBack {n i j : ℕ} {S : List (ℕ × ℕ)}
    (hb : ∀ p ∈ S, p.1 < p.2 ∧ p.2 < (remainingList n i j).length) :
    normKey (mapBack (remainingList n i j) S) =
      mapBack (remainingList n i j) (normKey S) := by
  have hbb : ∀ p ∈ S, p.1 < (remainingList n i j).length ∧
      p.2 < (remainingList n i j).length := by
    intro p hp
    have := hb p hp
    omega
  have hmb : ∀ p ∈ mapBack (remainingList n i j) S, p.1 < p.2 := by
    intro p hp
    obtain ⟨q, hq, rfl⟩ := List.mem_map.1 hp
    exact remainingList_getD_lt (hb q hq).1 (hbb q hq).2
  unfold normKey
  rw [map_sortPair_eq_self hmb, map_sortPair_eq_self (fun p hp => (hb p hp).1)]
  unfold mapBack
  rw [← List.map_insertionSort pairLe pairLe _ S]
  intro a ha b hbm
  exact remainingList_pairLe_iff a b (hbb a ha).1 (hbb a ha).2 (hbb b hbm).1 (hbb b hbm).2

/-! ### Pulling a pairing back through `remaining` -/

/-- Positions in `remaining` of the entries of a pairing (the inverse of
`mapBack`). -/
def pullPairs (rem : List ℕ) (T : List (ℕ × ℕ)) : List (ℕ × ℕ) :=
  T.map (fun p => (rem.indexOf p.1, rem.indexOf p.2))

theorem flatPairs_mapPairs (ρ : ℕ → ℕ) (S : List (ℕ × ℕ)) :
    ((S.map (fun p => (ρ p.1, ρ p.2))).flatMap (fun p => [p.1, p.2])) =
      (S.flatMap (fun p => [p.1, p.2])).map ρ := by
  induction S with
  | nil => rfl
  | cons p t ih =>
    rw [List.map_cons, List.flatMap_cons, List.flatMap_cons, List.map_append, ih]
    rfl

theorem flatPairs_pullPairs (rem : List ℕ) (T : List (ℕ × ℕ)) :
    ((pullPairs rem T).flatMap (fun p => [p.1, p.2])) =
      (T.flatMap (fun p => [p.1, p.2])).map (fun a => rem.indexOf a) := by
  induction T with
  | nil => rfl
  | cons p t ih =>
    unfold pullPairs at ih ⊢
    rw [List.map_cons, List.flatMap_cons, List.flatMap_cons, List.map_append, ih]
    rfl

theorem remainingList_indexOf_lt {n i j a : ℕ} (h : a ∈ remainingList n i j) :
    (remainingList n i j).indexOf a < (remainingList n i j).length :=
  List.indexOf_lt_length.2 h

theorem remainingList_getD_indexOf {n i j a : ℕ} (h : a ∈ remainingList n i j) :
    (remainingList n i j).getD ((remainingList n i j).indexOf a) 0 = a := by
  rw [List.getD_eq_getElem _ 0 (remainingList_indexOf_lt h)]
  exact List.getElem_indexOf _

theorem remainingList_indexOf_getD {n i j b : ℕ}
    (hb : b < (remainingList n i j).length) :
    (remainingList n i j).indexOf ((remainingList n i j).getD b 0) = b := by
  have hmem : (remainingList n i j).getD b 0 ∈ remainingList n i j :=
    remainingList_getD_mem hb
  exact remainingList_getD_inj (remainingList_indexOf_lt hmem) hb
    (remainingList_getD_indexOf hmem)

theorem remainingList_indexOf_lt_of_lt {n i j a b : ℕ}
    (ha : a ∈ remainingList n i j) (hb : b ∈ remainingList n i j) (hab : a < b) :
    (remainingList n i j).indexOf a < (remainingList n i j).indexOf b := by
  rw [← remainingList_getD_lt_iff (remainingList_indexOf_lt ha)
    (remainingList_indexOf_lt hb)]
  rw [remainingList_getD_indexOf ha, remainingList_getD_indexOf hb]
  exact hab

theorem mapBack_pullPairs {n i j : ℕ} {T : List (ℕ × ℕ)}
    (hT : ∀ p ∈ T, p.1 ∈ remainingList n i j ∧ p.2 ∈ remainingList n i j) :
    mapBack (remainingList n i j) (pullPairs (remainingList n i j) T) = T := by
  unfold mapBack pullPairs
  rw [List.map_map]
  have : T.map ((fun p => ((remainingList n i j).getD p.1 0,
      (remainingList n i j).getD p.2 0)) ∘
      fun p => ((remainingList n i j).indexOf p.1, (remainingList n i j).indexOf p.2)) =
      T.map id := by
    apply List.map_congr_left
    intro p hp
    obtain ⟨h1, h2⟩ := hT p hp
    simp only [Function.comp]
    rw [remainingList_getD_indexOf h1, remainingList_getD_indexOf h2]
    rfl
  rw [this, List.map_id]

theorem pairwise_imp_of_mem {α : Type} {l : List α} {Rr Ss : α → α → Prop}
    (h : ∀ a ∈ l, ∀ b ∈ l, Rr a b → Ss a b) (hp : l.Pairwise Rr) : l.Pairwise Ss := by
  induction l with
  | nil => exact List.Pairwise.nil
  | cons a t ih =>
    rw [List.pairwise_cons] at hp ⊢
    exact ⟨fun b hb => h a (by simp) b (by simp [hb]) (hp.1 b hb),
      ih (fun x hx y hy => h x (by simp [hx]) y (by simp [hy])) hp.2⟩

/-- Completeness of `_generate_k_pairings`: every canonical `k`-pairing of
`0..n-1` occurs (as a normalised form) in the generator's output. -/
theorem genPairings_complete :
    ∀ k n Q, IsCanon n k Q → Q ∈ (genPairings n k).map normKey := by
  intro k
  induction k with
  | zero =>
    intro n Q hQ
    have hQnil : Q = [] := List.length_eq_zero.1 hQ.1
    subst hQnil
    simp [genPairings, normKey]
  | succ k ih =>
    intro n Q hQ
    have h2k1 : 2 * (k + 1) ≤ n := isCanon_two_mul_le hQ
    obtain ⟨hlen, hb, hnd, hsort⟩ := hQ
    cases Q with
    | nil => exact absurd hlen (by simp)
    | cons q T =>
    obtain ⟨i, j⟩ := q
    have hTlen : T.length = k := by
      simpa using hlen
    have hbq := hb (i, j) (by simp)
    by_cases hk : k = 0
    · subst hk
      have hTnil : T = [] := List.length_eq_zero.1 hTlen
      subst hTnil
      rw [genPairings, if_pos rfl]
      apply List.mem_map.2
      exact ⟨[(i, j)], List.mem_map.2 ⟨(i, j), mem_allPairs.2 ⟨hbq.1, hbq.2⟩, rfl⟩,
        normKey_singleton (le_of_lt hbq.1)⟩
    · have hij : i < j := hbq.1
      have hjn : j < n := hbq.2
      have hrl : (remainingList n i j).length + 2 = n :=
        remainingList_length (by omega) hjn (by omega)
      have hguard : 2 * k ≤ (remainingList n i j).length := by omega
      rw [List.flatMap_cons, List.nodup_append] at hnd
      obtain ⟨hndij, hTnd, hdisj⟩ := hnd
      have hTmem : ∀ p ∈ T, p.1 ∈ remainingList n i j ∧ p.2 ∈ remainingList n i j := by
        intro p hp
        have hbp := hb p (by simp [hp])
        have h1f : p.1 ∈ T.flatMap (fun p => [p.1, p.2]) :=
          mem_flatPairs.2 ⟨p, hp, Or.inl rfl⟩
        have h2f : p.2 ∈ T.flatMap (fun p => [p.1, p.2]) :=
          mem_flatPairs.2 ⟨p, hp, Or.inr rfl⟩
        constructor <;> rw [mem_remainingList]
        · refine ⟨by omega, ?_, ?_⟩
          · intro he; exact hdisj (show i ∈ [i, j] by simp) (he ▸ h1f)
          · intro he; exact hdisj (show j ∈ [i, j] by simp) (he ▸ h1f)
        · refine ⟨by omega, ?_, ?_⟩
          · intro he; exact hdisj (show i ∈ [i, j] by simp) (he ▸ h2f)
          · intro he; exact hdisj (show j ∈ [i, j] by simp) (he ▸ h2f)
      have hTsort : T.Sorted pairLe := (List.pairwise_cons.1 hsort).2
      -- the pulled-back sub-pairing is canonical for (n-2, k)
      have hS0 : IsCanon (n - 2) k (pullPairs (remainingList n i j) T) := by
        refine ⟨by simp [pullPairs, hTlen], ?_, ?_, ?_⟩
        · intro p hp
          obtain ⟨⟨a, b⟩, hab, rfl⟩ := List.mem_map.1 hp
          obtain ⟨h1, h2⟩ := hTmem (a, b) hab
          have hablt : a < b := (hb (a, b) (by simp [hab])).1
          refine ⟨remainingList_indexOf_lt_of_lt h1 h2 hablt, ?_⟩
          have := remainingList_indexOf_lt h2
          omega
        · rw [flatPairs_pullPairs]
          apply hTnd.map_on
          intro x hx y hy hxy
          have hxr : x ∈ remainingList n i j := by
            obtain ⟨p, hp, hcase⟩ := mem_flatPairs.1 hx
            rcases hcase with rfl | rfl
            · exact (hTmem p hp).1
            · exact (hTmem p hp).2
          have hyr : y ∈ remainingList n i j := by
            obtain ⟨p, hp, hcase⟩ := mem_flatPairs.1 hy
            rcases hcase with rfl | rfl
            · exact (hTmem p hp).1
            · exact (hTmem p hp).2
          rw [← remainingList_getD_indexOf hxr, ← remainingList_getD_indexOf hyr, hxy]
        · unfold pullPairs
          apply List.pairwise_map.2
          apply pairwise_imp_of_mem ?_ hTsort
          intro a ha b hbm hab
          have hiff := remainingList_pairLe_iff
            ((remainingList n i j).indexOf a.1, (remainingList n i j).indexOf a.2)
            ((remainingList n i j).indexOf b.1, (remainingList n i j).indexOf b.2)
            (remainingList_indexOf_lt (hTmem a ha).1)
            (remainingList_indexOf_lt (hTmem a ha).2)
            (remainingList_indexOf_lt (hTmem b hbm).1)
            (remainingList_indexOf_lt (hTmem b hbm).2)
          rw [hiff]
          rw [remainingList_getD_indexOf (hTmem a ha).1,
            remainingList_getD_indexOf (hTmem a ha).2,
            remainingList_getD_indexOf (hTmem b hbm).1,
            remainingList_getD_indexOf (hTmem b hbm).2]
          exact hab
      obtain ⟨S, hSmem, hSkey⟩ := List.mem_map.1 (ih (n - 2) _ hS0)
      obtain ⟨hSlen, hSbnd, hSnd⟩ := genPairings_invariant k (n - 2) S hSmem
      have hSb : ∀ p ∈ S, p.1 < p.2 ∧ p.2 < (remainingList n i j).length := by
        intro p hp
        have := hSbnd p hp
        omega
      -- the generated raw pairing whose normal form is Q
      have praw : ((i, j) :: mapBack (remainingList n i j) S) ∈ rawPairings n k := by
        unfold rawPairings
        apply List.mem_flatMap.2
        refine ⟨(i, j), mem_allPairs.2 ⟨hij, hjn⟩, ?_⟩
        simp only
        rw [if_pos hguard]
        exact List.mem_map.2 ⟨S, hSmem, rfl⟩
      have hmapT : normKey (mapBack (remainingList n i j) S) = T := by
        rw [normKey_mapBack hSb, hSkey]
        exact mapBack_pullPairs hTmem
      have hmbinc : ∀ p ∈ mapBack (remainingList n i j) S, p.1 < p.2 := by
        intro p hp
        obtain ⟨s, hs, rfl⟩ := List.mem_map.1 hp
        exact remainingList_getD_lt (hSb s hs).1 (hSb s hs).2
      have hpermT : List.Perm (mapBack (remainingList n i j) S) T := by
        rw [← hmapT]
        exact (normKey_perm_self hmbinc).symm
      have hkeyQ : normKey ((i, j) :: mapBack (remainingList n i j) S) = (i, j) :: T := by
        rw [normKey_congr (hpermT.cons (i, j))]
        exact normKey_eq_self (fun p hp => (hb p hp).1) hsort
      rw [genPairings_eq_dedup_raw hk]
      apply List.mem_map.2
      have hmem := (dedupAux_keys_mem (rawPairings n k) [] ((i, j) :: T)).2
        ⟨List.mem_map.2 ⟨_, praw, hkeyQ⟩, by simp⟩
      obtain ⟨P, hP, hPkey⟩ := List.mem_map.1 hmem
      exact ⟨P, hP, hPkey⟩

/-! ### Counting the generator's output -/

theorem count_flatMap {α β : Type} [BEq β] (l : List α) (f : α → List β)
    (x : β) : (l.flatMap f).count x = (l.map (fun a => (f a).count x)).sum := by
  induction l with
  | nil => rfl
  | cons a t ih => rw [List.flatMap_cons, List.count_append, ih, List.map_cons,
      List.sum_cons]

theorem count_map_eq_countP {α β : Type} [BEq β] (g : α → β) (l : List α)
    (x : β) : (l.map g).count x = l.countP (fun a => g a == x) := by
  induction l with
  | nil => rfl
  | cons a t ih =>
    rw [List.map_cons, List.count_cons, ih, List.countP_cons]

theorem sum_indicator_eq_countP {α : Type} (l : List α) (p : α → Bool) :
    (l.map (fun a => if p a then 1 else 0)).sum = l.countP p := by
  induction l with
  | nil => rfl
  | cons a t ih =>
    rw [List.map_cons, List.sum_cons, ih, List.countP_cons]
    by_cases h : p a <;> simp [h] <;> omega

theorem pullPairs_mapBack {n i j : ℕ} {S : List (ℕ × ℕ)}
    (hSb : ∀ p ∈ S, p.1 < (remainingList n i j).length ∧
      p.2 < (remainingList n i j).length) :
    pullPairs (remainingList n i j) (mapBack (remainingList n i j) S) = S := by
  unfold mapBack pullPairs
  rw [List.map_map]
  have he : S.map ((fun p => ((remainingList n i j).indexOf p.1,
      (remainingList n i j).indexOf p.2)) ∘
      fun p => ((remainingList n i j).getD p.1 0, (remainingList n i j).getD p.2 0)) =
      S.map id := by
    apply List.map_congr_left
    intro p hp
    obtain ⟨h1, h2⟩ := hSb p hp
    simp only [Function.comp]
    rw [remainingList_indexOf_getD h1, remainingList_indexOf_getD h2]
    rfl
  rw [he, List.map_id]

/-- Pulling a sub-pairing with entries in `remaining` back to positions
`0..n-3` yields a canonical pairing. -/
theorem pullPairs_canon {n i j k : ℕ} (hij : i < j) (hjn : j < n)
    {T : List (ℕ × ℕ)} (hTlen : T.length = k) (hbT : ∀ p ∈ T, p.1 < p.2)
    (hTnd : (T.flatMap (fun p => [p.1, p.2])).Nodup)
    (hTmem : ∀ p ∈ T, p.1 ∈ remainingList n i j ∧ p.2 ∈ remainingList n i j)
    (hTsort : T.Sorted pairLe) :
    IsCanon (n - 2) k (pullPairs (remainingList n i j) T) := by
  have hrl : (remainingList n i j).length + 2 = n :=
    remainingList_length (by omega) hjn (by omega)
  refine ⟨by simp [pullPairs, hTlen], ?_, ?_, ?_⟩
  · intro p hp
    obtain ⟨⟨a, b⟩, hab, rfl⟩ := List.mem_map.1 hp
    obtain ⟨h1, h2⟩ := hTmem (a, b) hab
    refine ⟨remainingList_indexOf_lt_of_lt h1 h2 (hbT (a, b) hab), ?_⟩
    have := remainingList_indexOf_lt h2
    omega
  · rw [flatPairs_pullPairs]
    apply hTnd.map_on
    intro x hx y hy hxy
    have hxr : x ∈ remainingList n i j := by
      obtain ⟨p, hp, hcase⟩ := mem_flatPairs.1 hx
      rcases hcase with rfl | rfl
      · exact (hTmem p hp).1
      · exact (hTmem p hp).2
    have hyr : y ∈ remainingList n i j := by
      obtain ⟨p, hp, hcase⟩ := mem_flatPairs.1 hy
      rcases hcase with rfl | rfl
      · exact (hTmem p hp).1
      · exact (hTmem p hp).2
    rw [← remainingList_getD_indexOf hxr, ← remainingList_getD_indexOf hyr, hxy]
  · unfold pullPairs
    apply List.pairwise_map.2
    apply pairwise_imp_of_mem ?_ hTsort
    intro a ha b hbm hab
    have hiff := remainingList_pairLe_iff
      ((remainingList n i j).indexOf a.1, (remainingList n i j).indexOf a.2)
      ((remainingList n i j).indexOf b.1, (remainingList n i j).indexOf b.2)
      (remainingList_indexOf_lt (hTmem a ha).1)
      (remainingList_indexOf_lt (hTmem a ha).2)
      (remainingList_indexOf_lt (hTmem b hbm).1)
      (remainingList_indexOf_lt (hTmem b hbm).2)
    rw [hiff]
    rw [remainingList_getD_indexOf (hTmem a ha).1,
      remainingList_getD_indexOf (hTmem a ha).2,
      remainingList_getD_indexOf (hTmem b hbm).1,
      remainingList_getD_indexOf (hTmem b hbm).2]
    exact hab

theorem sum_if_mem (l Q : List (ℕ × ℕ)) :
    (l.map (fun a => if a ∈ Q then 1 else 0)).sum =
      (l.filter (fun a => decide (a ∈ Q))).length := by
  induction l with
  | nil => rfl
  | cons a t ih =>
    rw [List.map_cons, List.sum_cons, ih]
    by_cases h : a ∈ Q <;> simp [h] <;> omega

theorem perm_cons_eraseP {l : List (ℕ × ℕ)} {a : ℕ × ℕ} (h : a ∈ l) :
    List.Perm l (a :: l.erase a) := by
  induction l with
  | nil => cases h
  | cons b t ih =>
    by_cases hba : b = a
    · subst hba
      rw [List.erase_cons_head]
    · rw [List.erase_cons_tail (by simp [hba])]
      have hat : a ∈ t := by
        rcases List.mem_cons.1 h with rfl | h2
        · exact absurd rfl hba
        · exact h2
      exact ((ih hat).cons b).trans (List.Perm.swap a b _)

/-- For each sub-pairing `S` of the generator, the raw pairing
`(i,j) :: mapBack S` normalises to the canonical pairing `Q` containing
`(i,j)` exactly when `S` normalises to the pull-back of `Q.erase (i,j)`. -/
theorem normKey_cons_mapBack_eq_iff {n i j k : ℕ} (hij : i < j) (hjn : j < n)
    {Q : List (ℕ × ℕ)} (hQ : IsCanon n (k + 1) Q) (hmem : (i, j) ∈ Q)
    {S : List (ℕ × ℕ)} (hSmem : S ∈ genPairings (n - 2) k) :
    normKey ((i, j) :: mapBack (remainingList n i j) S) = Q ↔
      normKey S = pullPairs (remainingList n i j) (Q.erase (i, j)) := by
  obtain ⟨hQlen, hQb, hQnd, hQsort⟩ := hQ
  have hrl : (remainingList n i j).length + 2 = n :=
    remainingList_length (by omega) hjn (by omega)
  have hperm : List.Perm Q ((i, j) :: Q.erase (i, j)) := perm_cons_eraseP hmem
  have hbT' : ∀ p ∈ Q.erase (i, j), p.1 < p.2 ∧ p.2 < n :=
    fun p hp => hQb p (List.mem_of_mem_erase hp)
  have hfp : List.Perm (Q.flatMap (fun p => [p.1, p.2]))
      ([i, j] ++ (Q.erase (i, j)).flatMap (fun p => [p.1, p.2])) := by
    have := List.Perm.flatMap_right (fun p : ℕ × ℕ => [p.1, p.2]) hperm
    simpa [List.flatMap_cons] using this
  have hndapp := hfp.nodup_iff.1 hQnd
  rw [List.nodup_append] at hndapp
  obtain ⟨_, hndT', hdisj⟩ := hndapp
  have hT'mem : ∀ p ∈ Q.erase (i, j),
      p.1 ∈ remainingList n i j ∧ p.2 ∈ remainingList n i j := by
    intro p hp
    have hbp := hbT' p hp
    have h1f : p.1 ∈ (Q.erase (i, j)).flatMap (fun p => [p.1, p.2]) :=
      mem_flatPairs.2 ⟨p, hp, Or.inl rfl⟩
    have h2f : p.2 ∈ (Q.erase (i, j)).flatMap (fun p => [p.1, p.2]) :=
      mem_flatPairs.2 ⟨p, hp, Or.inr rfl⟩
    constructor <;> rw [mem_remainingList]
    · refine ⟨by omega, ?_, ?_⟩
      · intro he; exact hdisj (show i ∈ [i, j] by simp) (he ▸ h1f)
      · intro he; exact hdisj (show j ∈ [i, j] by simp) (he ▸ h1f)
    · refine ⟨by omega, ?_, ?_⟩
      · intro he; exact hdisj (show i ∈ [i, j] by simp) (he ▸ h2f)
      · intro he; exact hdisj (show j ∈ [i, j] by simp) (he ▸ h2f)
  have hT'sort : (Q.erase (i, j)).Sorted pairLe :=
    hQsort.sublist (List.erase_sublist _ _)
  have hnormT' : normKey (Q.erase (i, j)) = Q.erase (i, j) :=
    normKey_eq_self (fun p hp => (hbT' p hp).1) hT'sort
  obtain ⟨hSlen, hSbnd, hSnd⟩ := genPairings_invariant k (n - 2) S hSmem
  have hSb : ∀ p ∈ S, p.1 < p.2 ∧ p.2 < (remainingList n i j).length := by
    intro p hp
    have := hSbnd p hp
    omega
  have hmbinc : ∀ p ∈ mapBack (remainingList n i j) S, p.1 < p.2 := by
    intro p hp
    obtain ⟨s, hs, rfl⟩ := List.mem_map.1 hp
    exact remainingList_getD_lt (hSb s hs).1 (hSb s hs).2
  have hXinc : ∀ p ∈ (i, j) :: mapBack (remainingList n i j) S, p.1 < p.2 := by
    intro p hp
    rcases List.mem_cons.1 hp with rfl | hp2
    · exact hij
    · exact hmbinc p hp2
  have hXperm : List.Perm (normKey ((i, j) :: mapBack (remainingList n i j) S))
      ((i, j) :: mapBack (remainingList n i j) S) := normKey_perm_self hXinc
  have hnormS : List.Perm (normKey S) S :=
    normKey_perm_self (fun p hp => (hSb p hp).1)
  have hnormSb : ∀ p ∈ normKey S, p.1 < (remainingList n i j).length ∧
      p.2 < (remainingList n i j).length := by
    intro p hp
    have := hSb p (hnormS.mem_iff.1 hp)
    omega
  constructor
  · intro h
    have hQX : List.Perm Q ((i, j) :: mapBack (remainingList n i j) S) := by
      rw [← h]
      exact hXperm
    have hmbT' : List.Perm (mapBack (remainingList n i j) S) (Q.erase (i, j)) :=
      ((hperm.symm.trans hQX).cons_inv).symm
    have h1 : normKey (mapBack (remainingList n i j) S) = Q.erase (i, j) :=
      (normKey_congr hmbT').trans hnormT'
    rw [normKey_mapBack hSb] at h1
    have := congrArg (pullPairs (remainingList n i j)) h1
    rwa [pullPairs_mapBack hnormSb] at this
  · intro h
    have hmb : mapBack (remainingList n i j) (normKey S) = Q.erase (i, j) := by
      rw [h]
      exact mapBack_pullPairs hT'mem
    have h1 : normKey (mapBack (remainingList n i j) S) = Q.erase (i, j) := by
      rw [normKey_mapBack hSb, hmb]
    have hmbT' : List.Perm (mapBack (remainingList n i j) S) (Q.erase (i, j)) := by
      rw [← h1]
      exact (normKey_perm_self hmbinc).symm
    have hXQ : List.Perm ((i, j) :: mapBack (remainingList n i j) S) Q :=
      (hmbT'.cons (i, j)).trans hperm.symm
    rw [normKey_congr hXQ]
    exact normKey_eq_self (fun p hp => (hQb p hp).1) hQsort

theorem count_eq_one_of_mem_bq {α : Type} [BEq α] [LawfulBEq α] {a : α}
    {l : List α} (hnd : l.Nodup) (h : a ∈ l) : l.count a = 1 := by
  induction l with
  | nil => simp at h
  | cons b t ih =>
    rcases List.mem_cons.1 h with rfl | ht
    · rw [List.count_cons_self, List.count_eq_zero.2 (List.nodup_cons.1 hnd).1]
    · rw [List.count_cons_of_ne ?_, ih (List.nodup_cons.1 hnd).2 ht]
      rintro rfl
      exact (List.nodup_cons.1 hnd).1 ht

/-- Erasing one pair from a canonical `(k+1)`-pairing and pulling the rest
back through `remaining` yields a canonical `k`-pairing of `0..n-3`. -/
theorem erase_canon {n k i j : ℕ} (hij : i < j) (hjn : j < n)
    {Q : List (ℕ × ℕ)} (hQ : IsCanon n (k + 1) Q) (hmem : (i, j) ∈ Q) :
    IsCanon (n - 2) k (pullPairs (remainingList n i j) (Q.erase (i, j))) := by
  obtain ⟨hQlen, hQb, hQnd, hQsort⟩ := hQ
  have hperm : List.Perm Q ((i, j) :: Q.erase (i, j)) := perm_cons_eraseP hmem
  have hbT' : ∀ p ∈ Q.erase (i, j), p.1 < p.2 ∧ p.2 < n :=
    fun p hp => hQb p (List.mem_of_mem_erase hp)
  have hfp : List.Perm (Q.flatMap (fun p => [p.1, p.2]))
      ([i, j] ++ (Q.erase (i, j)).flatMap (fun p => [p.1, p.2])) := by
    have := List.Perm.flatMap_right (fun p : ℕ × ℕ => [p.1, p.2]) hperm
    simpa [List.flatMap_cons] using this
  have hndapp := hfp.nodup_iff.1 hQnd
  rw [List.nodup_append] at hndapp
  obtain ⟨_, hndT', hdisj⟩ := hndapp
  have hT'mem : ∀ p ∈ Q.erase (i, j),
      p.1 ∈ remainingList n i j ∧ p.2 ∈ remainingList n i j := by
    intro p hp
    have hbp := hbT' p hp
    have h1f : p.1 ∈ (Q.erase (i, j)).flatMap (fun p => [p.1, p.2]) :=
      mem_flatPairs.2 ⟨p, hp, Or.inl rfl⟩
    have h2f : p.2 ∈ (Q.erase (i, j)).flatMap (fun p => [p.1, p.2]) :=
      mem_flatPairs.2 ⟨p, hp, Or.inr rfl⟩
    constructor <;> rw [mem_remainingList]
    · refine ⟨by omega, ?_, ?_⟩
      · intro he; exact hdisj (show i ∈ [i, j] by simp) (he ▸ h1f)
      · intro he; exact hdisj (show j ∈ [i, j] by simp) (he ▸ h1f)
    · refine ⟨by omega, ?_, ?_⟩
      · intro he; exact hdisj (show i ∈ [i, j] by simp) (he ▸ h2f)
      · intro he; exact hdisj (show j ∈ [i, j] by simp) (he ▸ h2f)
  have hT'len : (Q.erase (i, j)).length = k := by
    rw [List.length_erase_of_mem hmem, hQlen]
    omega
  exact pullPairs_canon hij hjn hT'len (fun p hp => (hbT' p hp).1) hndT' hT'mem
    (hQsort.sublist (List.erase_sublist _ _))

/-- Each canonical `(k+1)`-pairing occurs exactly `k+1` times among the
normalised forms of the pre-deduplication list (once for each of its
pairs chosen as the generator's first pair). -/
theorem rawPairings_key_count {n k : ℕ} (h2 : 2 * (k + 1) ≤ n)
    {Q : List (ℕ × ℕ)} (hQ : IsCanon n (k + 1) Q) :
    ((rawPairings n k).map normKey).count Q = k + 1 := by
  unfold rawPairings
  rw [List.map_flatMap, count_flatMap]
  have hcongr : (allPairs n).map (fun q =>
      (((let rem := remainingList n q.1 q.2
        if 2 * k ≤ rem.length then
          (genPairings (n - 2) k).map (fun S => q :: mapBack rem S)
        else [])).map normKey).count Q) =
      (allPairs n).map (fun q => if q ∈ Q then 1 else 0) := by
    apply List.map_congr_left
    intro q hq
    obtain ⟨i, j⟩ := q
    have hijn := mem_allPairs.1 hq
    have hrl : (remainingList n i j).length + 2 = n :=
      remainingList_length (by omega) hijn.2 (by omega)
    simp only
    rw [if_pos (by omega)]
    by_cases hmem : (i, j) ∈ Q
    · rw [if_pos hmem, List.map_map, count_map_eq_countP]
      have hpc : ∀ S ∈ genPairings (n - 2) k,
          ((normKey ∘ fun S => (i, j) :: mapBack (remainingList n i j) S) S == Q)
            = true ↔
          (normKey S == pullPairs (remainingList n i j) (Q.erase (i, j))) = true := by
        intro S hS
        simp only [Function.comp, beq_iff_eq]
        exact normKey_cons_mapBack_eq_iff hijn.1 hijn.2 hQ hmem hS
      rw [List.countP_congr hpc, ← count_map_eq_countP]
      exact count_eq_one_of_mem_bq (genPairings_keys_nodup k (n - 2))
        (genPairings_complete k (n - 2) _ (erase_canon hijn.1 hijn.2 hQ hmem))
    · rw [if_neg hmem]
      apply List.count_eq_zero.2
      intro hQmem
      rw [List.map_map] at hQmem
      obtain ⟨S, hS, hSkey⟩ := List.mem_map.1 hQmem
      obtain ⟨hSlen, hSbnd, hSnd⟩ := genPairings_invariant k (n - 2) S hS
      have hSb : ∀ p ∈ S, p.1 < p.2 ∧ p.2 < (remainingList n i j).length := by
        intro p hp
        have := hSbnd p hp
        omega
      have hXinc : ∀ p ∈ (i, j) :: mapBack (remainingList n i j) S, p.1 < p.2 := by
        intro p hp
        rcases List.mem_cons.1 hp with rfl | hp2
        · exact hijn.1
        · obtain ⟨s, hs, rfl⟩ := List.mem_map.1 hp2
          exact remainingList_getD_lt (hSb s hs).1 (hSb s hs).2
      have : (i, j) ∈ Q := by
        rw [← hSkey]
        exact (normKey_perm_self hXinc).mem_iff.2 (by simp)
      exact hmem this
  rw [hcongr, sum_if_mem]
  have hQnd : Q.Nodup := pairs_nodup_of_flat_nodup hQ.2.2.1
  have hfilter : List.Perm ((allPairs n).filter (fun a => decide (a ∈ Q))) Q := by
    apply (List.perm_ext_iff_of_nodup ((allPairs_nodup n).filter _) hQnd).2
    intro a
    rw [List.mem_filter]
    constructor
    · rintro ⟨_, h⟩
      simpa using h
    · intro h
      exact ⟨mem_allPairs.2 ⟨(hQ.2.1 a h).1, (hQ.2.1 a h).2⟩, by simpa using h⟩
  rw [hfilter.length_eq, hQ.1]

theorem countP_add_countP_not {α : Type} (p : α → Bool) (l : List α) :
    l.countP p + l.countP (fun a => !(p a)) = l.length := by
  induction l with
  | nil => rfl
  | cons a t ih =>
    rw [List.countP_cons, List.countP_cons, List.length_cons, ← ih]
    cases h : p a <;> simp [h] <;> omega

/-- Counting a list by a nodup list of representatives: if every element of
`L` lies in `G` and every element of `G` occurs exactly `c` times in `L`,
then `L` has `G.length * c` elements. -/
theorem length_eq_card_mul_count {α : Type} [BEq α] [LawfulBEq α] :
    ∀ (G L : List α) (c : ℕ), G.Nodup → (∀ x ∈ L, x ∈ G) →
      (∀ x ∈ G, L.count x = c) → L.length = G.length * c := by
  intro G
  induction G with
  | nil =>
    intro L c _ hsub _
    have hL : L = [] := List.eq_nil_iff_forall_not_mem.2
      (fun x hx => (List.not_mem_nil x) (hsub x hx))
    simp [hL]
  | cons g G' ih =>
    intro L c hnd hsub hcnt
    have hgG' : g ∉ G' := (List.nodup_cons.1 hnd).1
    have hsplit : L.length = L.countP (fun a => a == g) +
        L.countP (fun a => !(a == g)) :=
      (countP_add_countP_not (fun a => a == g) L).symm
    have hcg : L.countP (fun a => a == g) = c := hcnt g (List.mem_cons_self g G')
    have hL' : (L.filter (fun a => !(a == g))).length = G'.length * c := by
      apply ih _ c (List.nodup_cons.1 hnd).2
      · intro x hx
        obtain ⟨hxL, hxg⟩ := List.mem_filter.1 hx
        rcases List.mem_cons.1 (hsub x hxL) with rfl | h
        · simp at hxg
        · exact h
      · intro x hx
        have hxg : x ≠ g := fun h => hgG' (h ▸ hx)
        have h1 : (L.filter (fun a => !(a == g))).count x =
            L.countP (fun a => (a == x) && !(a == g)) := by
          rw [List.count_eq_countP, List.countP_filter]
        have h2 : L.countP (fun a => (a == x) && !(a == g)) =
            L.countP (fun a => a == x) := by
          apply List.countP_congr
          intro a _
          constructor
          · intro h
            simp only [Bool.and_eq_true] at h
            exact h.1
          · intro h
            have : a = x := by simpa using h
            subst this
            simp [hxg]
        rw [h1, h2]
        exact hcnt x (List.mem_cons_of_mem g hx)
    rw [hsplit, hcg, List.countP_eq_length_filter, hL', List.length_cons]
    ring

/-- Twice the number of candidate first pairs is `n * (n - 1)`. -/
theorem allPairs_length_mul_two (n : ℕ) : (allPairs n).length * 2 = n * (n - 1) := by
  have h1 : (allPairs n).length = ((List.range n).map (fun i => n - (i + 1))).sum := by
    unfold allPairs
    rw [List.length_flatMap]
    congr 1
    apply List.map_congr_left
    intro i _
    simp only [Function.comp_apply]
    rw [List.length_map, List.length_range']
  have h2 : ((List.range n).map (fun i => n - (i + 1))).sum
      = ∑ i in Finset.range n, (n - (i + 1)) := by rfl
  have h3 : ∑ i in Finset.range n, (n - (i + 1)) = ∑ i in Finset.range n, i := by
    rw [Finset.sum_congr rfl (fun i _ => by omega : ∀ i ∈ Finset.range n,
      n - (i + 1) = n - 1 - i)]
    exact Finset.sum_range_reflect (fun j => j) n
  rw [h1, h2, h3]
  exact Finset.sum_range_id_mul_two n

/-- With only one pair to place, the generator lists each candidate pair once. -/
theorem genPairings_one_length (n : ℕ) :
    (genPairings n 1).length = (allPairs n).length := by
  show ((allPairs n).map (fun p => [p])).length = (allPairs n).length
  rw [List.length_map]

/-- The pre-deduplication list has one block per candidate first pair. -/
theorem rawPairings_length {n k : ℕ} (h2 : 2 * (k + 1) ≤ n) :
    (rawPairings n k).length = (allPairs n).length * (genPairings (n - 2) k).length := by
  unfold rawPairings
  rw [List.length_flatMap]
  simp only [Function.comp]
  have hcongr : List.map (List.length ∘ fun p =>
      if 2 * k ≤ (remainingList n p.1 p.2).length then
        List.map (fun S => p :: mapBack (remainingList n p.1 p.2) S)
          (genPairings (n - 2) k)
      else []) (allPairs n) =
      (allPairs n).map (fun _ => (genPairings (n - 2) k).length) := by
    apply List.map_congr_left
    intro q hq
    obtain ⟨i, j⟩ := q
    have hijn := mem_allPairs.1 hq
    have hrl : (remainingList n i j).length + 2 = n :=
      remainingList_length (by omega) hijn.2 (by omega)
    simp only [Function.comp_apply]
    rw [if_pos (by omega), List.length_map]
  rw [hcongr]
  simp [List.map_const', List.sum_replicate, smul_eq_mul]

/-- Each canonical pairing is produced `k + 1` times before deduplication, so
the deduplicated length satisfies the product recurrence. -/
theorem genPairings_succ_length {n k : ℕ} (hk : k ≠ 0) (h2 : 2 * (k + 1) ≤ n) :
    (genPairings n (k + 1)).length * (k + 1) = (rawPairings n k).length := by
  have hG := genPairings_keys_nodup (k + 1) n
  have hmain := length_eq_card_mul_count
    ((genPairings n (k + 1)).map normKey) ((rawPairings n k).map normKey) (k + 1)
    hG ?_ ?_
  · rw [List.length_map, List.length_map] at hmain
    exact hmain.symm
  · intro x hx
    rw [genPairings_eq_dedup_raw hk]
    exact (dedupAux_keys_mem (rawPairings n k) [] x).2 ⟨hx, by simp⟩
  · intro x hx
    obtain ⟨P, hP, rfl⟩ := List.mem_map.1 hx
    exact rawPairings_key_count h2 (normKey_of_mem_genPairings hP)

/-- Multiplicative closed form: `len * (2^k * k! * (n-2k)!) = n!`. -/
theorem genPairings_count_mul : ∀ k n, 2 * k ≤ n →
    (genPairings n k).length * (2 ^ k * k.factorial * (n - 2 * k).factorial)
      = n.factorial := by
  intro k
  induction k with
  | zero =>
    intro n _
    show ([[]] : List (List (ℕ × ℕ))).length * _ = _
    simp
  | succ k ih =>
    intro n h2
    have hrec : (genPairings n (k + 1)).length * (k + 1) =
        (allPairs n).length * (genPairings (n - 2) k).length := by
      rcases Nat.eq_zero_or_pos k with rfl | hk
      · rw [genPairings_one_length]
        have h0 : genPairings (n - 2) 0 = [[]] := rfl
        simp [h0]
      · rw [genPairings_succ_length (by omega) (by omega), rawPairings_length (by omega)]
    obtain ⟨m, hm⟩ : ∃ m, n = m + 2 := ⟨n - 2, by omega⟩
    subst hm
    have hsub : m + 2 - 2 = m := by omega
    rw [hsub] at hrec
    have hih := ih m (by omega)
    have hA : (allPairs (m + 2)).length * 2 = (m + 2) * (m + 1) := by
      have h := allPairs_length_mul_two (m + 2)
      rw [show m + 2 - 1 = m + 1 by omega] at h
      exact h
    have hsub2 : m + 2 - 2 * (k + 1) = m - 2 * k := by omega
    rw [hsub2]
    calc (genPairings (m + 2) (k + 1)).length *
          (2 ^ (k + 1) * (k + 1).factorial * (m - 2 * k).factorial)
        = ((genPairings (m + 2) (k + 1)).length * (k + 1)) *
            (2 ^ k * k.factorial * (m - 2 * k).factorial) * 2 := by
          rw [Nat.factorial_succ, pow_succ]
          ring
      _ = ((allPairs (m + 2)).length * (genPairings m k).length) *
            (2 ^ k * k.factorial * (m - 2 * k).factorial) * 2 := by rw [hrec]
      _ = ((allPairs (m + 2)).length * 2) *
            ((genPairings m k).length * (2 ^ k * k.factorial * (m - 2 * k).factorial)) := by
          ring
      _ = ((m + 2) * (m + 1)) * m.factorial := by rw [hA, hih]
      _ = (m + 2).factorial := by
          rw [Nat.factorial_succ, Nat.factorial_succ]
          ring

theorem genPairings_length_closed {n k : ℕ} (h2 : 2 * k ≤ n) :
    (genPairings n k).length =
      n.factorial / (2 ^ k * k.factorial * (n - 2 * k).factorial) := by
  have h := genPairings_count_mul k n h2
  have hpos : 0 < 2 ^ k * k.factorial * (n - 2 * k).factorial :=
    Nat.mul_pos (Nat.mul_pos (pow_pos (by omega) k) k.factorial_pos)
      (Nat.factorial_pos _)
  exact (Nat.div_eq_of_eq_mul_left hpos h.symm).symm

/-- C2: for every `n ≥ 0` and `0 ≤ k ≤ ⌊n/2⌋`, `_generate_k_pairings(n, k)`
returns exactly `n! / (2^k * k! * (n-2k)!)` pairings. -/
theorem genPairings_count_formula (n k : ℕ) (hk : k ≤ n / 2) :
    (genPairings n k).length =
      n.factorial / (2 ^ k * k.factorial * (n - 2 * k).factorial) :=
  genPairings_length_closed (by omega)

theorem genPairings_count_formula_witness :
    2 ≤ 4 / 2 ∧ (genPairings 4 2).length =
      Nat.factorial 4 / (2 ^ 2 * Nat.factorial 2 * (4 - 2 * 2).factorial) :=
  ⟨by decide, genPairings_count_formula 4 2 (by decide)⟩

/-- A pairing viewed as a set of unordered pairs. -/
def pairSet (P : List (ℕ × ℕ)) : Finset (Sym2 ℕ) :=
  (P.map (fun p => Sym2.mk p)).toFinset

theorem sym2_mk_inj_of_lt {x y : ℕ × ℕ} (hx : x.1 < x.2) (hy : y.1 < y.2)
    (h : Sym2.mk x = Sym2.mk y) : x = y := by
  obtain ⟨a, b⟩ := x
  obtain ⟨c, d⟩ := y
  rw [Sym2.mk_eq_mk_iff] at h
  rcases h with h | h
  · exact h
  · have h1 := congrArg Prod.fst h
    have h2 := congrArg Prod.snd h
    simp [Prod.swap] at h1 h2
    simp only at hx hy
    omega

/-- Members of generator output with equal unordered-pair sets have equal
canonical keys. -/
theorem normKey_eq_of_pairSet_eq {n k : ℕ} {P₁ P₂ : List (ℕ × ℕ)}
    (h₁ : P₁ ∈ genPairings n k) (h₂ : P₂ ∈ genPairings n k)
    (h : pairSet P₁ = pairSet P₂) : normKey P₁ = normKey P₂ := by
  obtain ⟨_, hb₁, hf₁⟩ := genPairings_invariant k n P₁ h₁
  obtain ⟨_, hb₂, hf₂⟩ := genPairings_invariant k n P₂ h₂
  have hmem : ∀ x, x ∈ P₁ ↔ x ∈ P₂ := by
    have key : ∀ (A B : List (ℕ × ℕ)), (∀ p ∈ A, p.1 < p.2 ∧ p.2 < n) →
        (∀ p ∈ B, p.1 < p.2 ∧ p.2 < n) → pairSet A = pairSet B →
        ∀ x ∈ A, x ∈ B := by
      intro A B hbA hbB hAB x hx
      have hxs : Sym2.mk x ∈ pairSet A := by
        rw [pairSet, List.mem_toFinset]
        exact List.mem_map.2 ⟨x, hx, rfl⟩
      rw [hAB, pairSet, List.mem_toFinset] at hxs
      obtain ⟨y, hy, hyx⟩ := List.mem_map.1 hxs
      have := sym2_mk_inj_of_lt (hbB y hy).1 (hbA x hx).1 hyx
      exact this ▸ hy
    exact fun x => ⟨key P₁ P₂ hb₁ hb₂ h x, key P₂ P₁ hb₂ hb₁ h.symm x⟩
  exact normKey_congr ((List.perm_ext_iff_of_nodup
    (pairs_nodup_of_flat_nodup hf₁) (pairs_nodup_of_flat_nodup hf₂)).2 hmem)

/-- C6: for `0 ≤ k ≤ ⌊n/2⌋` the output of `_generate_k_pairings(n, k)` has no
two pairings equal as sets of unordered pairs, and every returned pairing
consists of `k` pairs whose `2k` position integers are pairwise distinct. -/
theorem genPairings_distinct_disjoint (n k : ℕ) (hk : k ≤ n / 2) :
    ((genPairings n k).map pairSet).Nodup ∧
      ∀ P ∈ genPairings n k,
        P.length = k ∧ (P.flatMap (fun p => [p.1, p.2])).Nodup := by
  constructor
  · have hnd := genPairings_keys_nodup k n
    have h1 : (genPairings n k).Pairwise (fun a b => normKey a ≠ normKey b) :=
      List.pairwise_map.1 hnd
    apply List.pairwise_map.2
    refine List.Pairwise.imp_of_mem ?_ h1
    intro a b ha hb hne heq
    exact hne (normKey_eq_of_pairSet_eq ha hb heq)
  · intro P hP
    obtain ⟨h1, _, h3⟩ := genPairings_invariant k n P hP
    exact ⟨h1, h3⟩

theorem genPairings_distinct_disjoint_witness :
    2 ≤ 4 / 2 ∧ (((genPairings 4 2).map pairSet).Nodup ∧
      ∀ P ∈ genPairings 4 2,
        P.length = 2 ∧ (P.flatMap (fun p => [p.1, p.2])).Nodup) :=
  ⟨by decide, genPairings_distinct_disjoint 4 2 (by decide)⟩

/-! ## Algebra of canonical equality, used for permutation invariance -/

theorem coeffOf_cons (m : Mon) (r : R) (key : ℤ × ℤ × List Atom) :
    coeffOf (m :: r) key =
      (if mkey m = key then m.coeff else 0) + coeffOf r key := by
  unfold coeffOf
  rw [List.filter_cons]
  by_cases h : mkey m = key
  · simp [h]
  · simp [h]

theorem coeffOf_append (r₁ r₂ : R) (key : ℤ × ℤ × List Atom) :
    coeffOf (r₁ ++ r₂) key = coeffOf r₁ key + coeffOf r₂ key := by
  unfold coeffOf
  rw [List.filter_append, List.map_append, List.sum_append]

theorem eqR_refl (r : R) : eqR r r := fun _ => rfl

theorem eqR_symm {r₁ r₂ : R} (h : eqR r₁ r₂) : eqR r₂ r₁ :=
  fun key => (h key).symm

theorem eqR_trans {r₁ r₂ r₃ : R} (h : eqR r₁ r₂) (h' : eqR r₂ r₃) : eqR r₁ r₃ :=
  fun key => (h key).trans (h' key)

theorem eqR_of_perm {r₁ r₂ : R} (h : List.Perm r₁ r₂) : eqR r₁ r₂ := by
  intro key
  unfold coeffOf
  exact ((h.filter _).map Mon.coeff).sum_eq

/-- Like-term equivalence of monomials: same coefficient and same canonical
shape. -/
def monEquiv (m m' : Mon) : Prop := m.coeff = m'.coeff ∧ mkey m = mkey m'

theorem eqR_cons {m m' : Mon} {r r' : R} (hm : monEquiv m m') (hr : eqR r r') :
    eqR (m :: r) (m' :: r') := by
  intro key
  rw [coeffOf_cons, coeffOf_cons, hm.2, hm.1, hr key]

theorem eqR_of_forall₂ : ∀ {r r' : R}, List.Forall₂ monEquiv r r' → eqR r r' := by
  intro r
  induction r with
  | nil =>
    intro r' h
    cases h
    exact eqR_refl []
  | cons m t ih =>
    intro r' h
    cases h with
    | cons hm ht => exact eqR_cons hm (ih ht)

theorem eqR_append {r₁ r₂ s₁ s₂ : R} (h₁ : eqR r₁ s₁) (h₂ : eqR r₂ s₂) :
    eqR (r₁ ++ r₂) (s₁ ++ s₂) := by
  intro key
  rw [coeffOf_append, coeffOf_append, h₁ key, h₂ key]

theorem eqR_flatten : ∀ {L L' : List R}, List.Forall₂ eqR L L' →
    eqR L.flatten L'.flatten := by
  intro L
  induction L with
  | nil =>
    intro L' h
    cases h
    exact eqR_refl []
  | cons r t ih =>
    intro L' h
    cases h with
    | cons hr ht =>
      rw [List.flatten_cons, List.flatten_cons]
      exact eqR_append hr (ih ht)

theorem forall₂_map_of_forall {α β : Type} {Rr : β → β → Prop} {f g : α → β} :
    ∀ {l : List α}, (∀ a ∈ l, Rr (f a) (g a)) →
      List.Forall₂ Rr (l.map f) (l.map g) := by
  intro l
  induction l with
  | nil => intro _; exact List.Forall₂.nil
  | cons a t ih =>
    intro h
    exact List.Forall₂.cons (h a (by simp))
      (ih (fun x hx => h x (by simp [hx])))

/-- The trace coefficient `(-1)^k * (2n-2k-1)!!` used by
`_trace_with_k_pairs`. -/
def qCoeff (n k : ℕ) : ℤ :=
  (-1) ^ k * (if 0 < 2 * (n : ℤ) - 2 * (k : ℤ) - 1
    then (doubleFactorial (2 * (n : ℤ) - 2 * (k : ℤ) - 1).toNat : ℤ) else 1)

/-- The total value of one trace monomial, for an in-range index list. -/
def qMonT (n k : ℕ) (idx : List ℕ) (P : List (ℕ × ℕ)) : Mon :=
  ⟨qCoeff n k, 0, 2 * (k : ℤ), pairingAtomsT Atom.xa idx n P⟩

theorem qTraceK_eq_some {n k : ℕ} {idx : List ℕ} (hlen : n ≤ idx.length)
    (hk : k ≤ n / 2) :
    qTraceK n idx k = some ((genPairings n k).map (qMonT n k idx)) := by
  unfold qTraceK
  rw [if_neg (by omega)]
  have hterms : mapMO (pairingAtoms Atom.xa idx n) (genPairings n k) =
      some ((genPairings n k).map (pairingAtomsT Atom.xa idx n)) := by
    apply mapMO_eq_some
    intro P hP
    apply pairingAtoms_eq_some hlen
    intro p hp
    have h := (genPairings_invariant k n P hP).2.1 p hp
    omega
  rw [hterms]
  show some _ = some _
  rw [List.map_map]
  rfl

theorem qTraces_eq_some {n : ℕ} {idx : List ℕ} (hlen : n ≤ idx.length) :
    qTraces n idx = some ((((List.range (n / 2)).map (· + 1)).map
      (fun k => (genPairings n k).map (qMonT n k idx))).flatten) := by
  unfold qTraces
  have h : mapMO (qTraceK n idx) ((List.range (n / 2)).map (· + 1)) =
      some (((List.range (n / 2)).map (· + 1)).map
        (fun k => (genPairings n k).map (qMonT n k idx))) := by
    apply mapMO_eq_some
    intro k hk
    obtain ⟨k', hk', rfl⟩ := List.mem_map.1 hk
    exact qTraceK_eq_some hlen (by have := List.mem_range.1 hk'; omega)
  rw [h]
  rfl

/-- The total value of `_Q_n_general` for an in-range index list. -/
def qGeneralT (n : ℕ) (idx : List ℕ) : R :=
  ⟨(doubleFactorial (2 * n - 1) : ℤ), 0, 0, idx.map Atom.xa⟩ ::
    (((List.range (n / 2)).map (· + 1)).map
      (fun k => (genPairings n k).map (qMonT n k idx))).flatten

theorem qGeneral_eq_some {n : ℕ} {idx : List ℕ} (hlen : n ≤ idx.length) :
    qGeneral n idx = some (qGeneralT n idx) := by
  unfold qGeneral qGeneralT
  rw [qTraces_eq_some hlen]
  rfl

/-! ## The position permutation induced by permuting the index list -/

theorem indexOf_getElem_of_nodup {l : List ℕ} (hnd : l.Nodup) {i : ℕ}
    (h : i < l.length) : l.indexOf l[i] = i := by
  have hm : l[i] ∈ l := List.getElem_mem h
  have hlt := List.indexOf_lt_length.2 hm
  have heq := List.getElem_indexOf hlt
  have h2 := (List.Nodup.get_inj_iff hnd).1
    (show l.get ⟨l.indexOf l[i], hlt⟩ = l.get ⟨i, h⟩ from by simpa using heq)
  exact congrArg Fin.val h2

/-- The position of `l₂`'s `p`-th label inside `l₁`. -/
def permIdx (l₁ l₂ : List ℕ) (p : ℕ) : ℕ := l₁.indexOf (l₂.getD p 0)

theorem permIdx_lt {l₁ l₂ : List ℕ} {n p : ℕ} (hperm : List.Perm l₁ l₂)
    (hlen : l₁.length = n) (hp : p < n) : permIdx l₁ l₂ p < n := by
  have hl₂ : l₂.length = n := by rw [← hperm.length_eq]; exact hlen
  have hmem : l₂.getD p 0 ∈ l₂ := by
    rw [List.getD_eq_getElem l₂ 0 (by omega)]
    exact List.getElem_mem _
  have hmem₁ : l₂.getD p 0 ∈ l₁ := hperm.mem_iff.2 hmem
  have := List.indexOf_lt_length.2 hmem₁
  unfold permIdx
  omega

theorem permIdx_getD {l₁ l₂ : List ℕ} {n p : ℕ} (hperm : List.Perm l₁ l₂)
    (hlen : l₁.length = n) (hp : p < n) :
    l₁.getD (permIdx l₁ l₂ p) 0 = l₂.getD p 0 := by
  have hl₂ : l₂.length = n := by rw [← hperm.length_eq]; exact hlen
  have hmem : l₂.getD p 0 ∈ l₂ := by
    rw [List.getD_eq_getElem l₂ 0 (by omega)]
    exact List.getElem_mem _
  have hmem₁ : l₂.getD p 0 ∈ l₁ := hperm.mem_iff.2 hmem
  have hlt := List.indexOf_lt_length.2 hmem₁
  unfold permIdx
  rw [List.getD_eq_getElem l₁ 0 hlt]
  exact List.getElem_indexOf hlt

theorem permIdx_inj {l₁ l₂ : List ℕ} {n p q : ℕ} (hnd₂ : l₂.Nodup)
    (hperm : List.Perm l₁ l₂) (hlen : l₁.length = n) (hp : p < n) (hq : q < n)
    (h : permIdx l₁ l₂ p = permIdx l₁ l₂ q) : p = q := by
  have hl₂ : l₂.length = n := by rw [← hperm.length_eq]; exact hlen
  have h2 : l₂.getD p 0 = l₂.getD q 0 := by
    rw [← permIdx_getD hperm hlen hp, ← permIdx_getD hperm hlen hq, h]
  have h3 := (List.Nodup.get_inj_iff hnd₂).1
    (show l₂.get ⟨p, by omega⟩ = l₂.get ⟨q, by omega⟩ from by
      simp only [List.get_eq_getElem]
      rw [← List.getD_eq_getElem l₂ 0 (show p < l₂.length by omega),
          ← List.getD_eq_getElem l₂ 0 (show q < l₂.length by omega)]
      exact h2)
  exact congrArg Fin.val h3

theorem permIdx_surj {l₁ l₂ : List ℕ} {n m : ℕ} (hnd₁ : l₁.Nodup)
    (hperm : List.Perm l₁ l₂) (hlen : l₁.length = n) (hm : m < n) :
    permIdx l₂ l₁ m < n ∧ permIdx l₁ l₂ (permIdx l₂ l₁ m) = m := by
  have hl₂ : l₂.length = n := by rw [← hperm.length_eq]; exact hlen
  have hτ : permIdx l₂ l₁ m < n := permIdx_lt hperm.symm hl₂ hm
  refine ⟨hτ, ?_⟩
  have h1 : l₂.getD (permIdx l₂ l₁ m) 0 = l₁.getD m 0 :=
    permIdx_getD hperm.symm hl₂ hm
  show l₁.indexOf (l₂.getD (permIdx l₂ l₁ m) 0) = m
  rw [h1, List.getD_eq_getElem l₁ 0 (by omega)]
  exact indexOf_getElem_of_nodup hnd₁ (by omega)

/-- Relabel a pairing's positions and re-orient each pair. -/
def mapPairs (σ : ℕ → ℕ) (Q : List (ℕ × ℕ)) : List (ℕ × ℕ) :=
  Q.map (fun q => sortPair (σ q.1, σ q.2))

theorem perm_flatMap_congr {α β : Type} {l : List α} {f g : α → List β}
    (h : ∀ a ∈ l, List.Perm (f a) (g a)) :
    List.Perm (l.flatMap f) (l.flatMap g) := by
  induction l with
  | nil => exact List.Perm.refl _
  | cons a t ih =>
    rw [List.flatMap_cons, List.flatMap_cons]
    exact (h a (by simp)).append (ih (fun x hx => h x (by simp [hx])))

theorem flatPairs_mapPairs_perm (σ : ℕ → ℕ) (Q : List (ℕ × ℕ)) :
    List.Perm ((mapPairs σ Q).flatMap (fun p => [p.1, p.2]))
      ((Q.flatMap (fun p => [p.1, p.2])).map σ) := by
  unfold mapPairs
  rw [List.flatMap_map, List.map_flatMap]
  apply perm_flatMap_congr
  intro q _
  simp only [Function.comp_apply, List.map_cons, List.map_nil]
  unfold sortPair
  by_cases h : σ q.1 ≤ σ q.2
  · rw [if_pos h]
  · rw [if_neg h]
    exact (List.Perm.swap (σ q.2) (σ q.1) []).symm

theorem isCanon_mapPairs {n k : ℕ} {σ : ℕ → ℕ} {Q : List (ℕ × ℕ)}
    (hσlt : ∀ p, p < n → σ p < n)
    (hσinj : ∀ p q, p < n → q < n → σ p = σ q → p = q)
    (hQ : IsCanon n k Q) : IsCanon n k (normKey (mapPairs σ Q)) := by
  obtain ⟨hQlen, hQb, hQnd, _⟩ := hQ
  apply isCanon_normKey
  · rw [mapPairs, List.length_map, hQlen]
  · intro p hp
    obtain ⟨q, hq, rfl⟩ := List.mem_map.1 hp
    obtain ⟨h1, h2⟩ := hQb q hq
    have hne : σ q.1 ≠ σ q.2 := fun he =>
      absurd (hσinj q.1 q.2 (by omega) h2 he) (by omega)
    have ha := hσlt q.1 (by omega)
    have hb := hσlt q.2 h2
    unfold sortPair
    by_cases h : σ q.1 ≤ σ q.2
    · rw [if_pos h]
      exact ⟨by omega, hb⟩
    · rw [if_neg h]
      exact ⟨by omega, ha⟩
  · apply ((flatPairs_mapPairs_perm σ Q).nodup_iff).2
    apply hQnd.map_on
    intro x hx y hy hxy
    obtain ⟨px, hpx, hex⟩ := mem_flatPairs.1 hx
    obtain ⟨py, hpy, hey⟩ := mem_flatPairs.1 hy
    have hbx := hQb px hpx
    have hby := hQb py hpy
    exact hσinj x y (by rcases hex with rfl | rfl <;> omega)
      (by rcases hey with rfl | rfl <;> omega) hxy

theorem atomSymD_delta_comm (a b : ℕ) :
    atomSymD (Atom.delta a b) = atomSymD (Atom.delta b a) := by
  show (if a ≤ b then Atom.delta a b else Atom.delta b a) =
    (if b ≤ a then Atom.delta b a else Atom.delta a b)
  by_cases h : a ≤ b
  · by_cases h' : b ≤ a
    · rw [if_pos h, if_pos h']
      have hab : a = b := le_antisymm h h'
      subst hab
      rfl
    · rw [if_pos h, if_neg h']
  · by_cases h' : b ≤ a
    · rw [if_neg h, if_pos h']
    · omega

theorem mem_freePositions_iff {n : ℕ} {P : List (ℕ × ℕ)} {pos : ℕ} :
    pos ∈ freePositions n P ↔ pos < n ∧ ∀ p ∈ P, p.1 ≠ pos ∧ p.2 ≠ pos := by
  unfold freePositions
  rw [List.mem_filter, List.mem_range]
  simp only [Bool.not_eq_true', List.any_eq_false, Bool.or_eq_true, beq_iff_eq,
    not_or]

theorem freePositions_nodup (n : ℕ) (P : List (ℕ × ℕ)) :
    (freePositions n P).Nodup :=
  (List.nodup_range n).filter _

theorem freePositions_congr {n : ℕ} {P P' : List (ℕ × ℕ)}
    (h : List.Perm P P') : freePositions n P = freePositions n P' := by
  unfold freePositions
  apply List.filter_congr
  intro pos _
  have hany : P.any (fun p => p.1 == pos || p.2 == pos) =
      P'.any (fun p => p.1 == pos || p.2 == pos) := by
    rw [Bool.eq_iff_iff, List.any_eq_true, List.any_eq_true]
    constructor
    · rintro ⟨x, hx, hfx⟩
      exact ⟨x, h.mem_iff.1 hx, hfx⟩
    · rintro ⟨x, hx, hfx⟩
      exact ⟨x, h.mem_iff.2 hx, hfx⟩
  rw [hany]

theorem pairingAtomsT_perm {vec : ℕ → Atom} {idx : List ℕ} {n : ℕ}
    {P P' : List (ℕ × ℕ)} (h : List.Perm P P') :
    List.Perm (pairingAtomsT vec idx n P) (pairingAtomsT vec idx n P') := by
  unfold pairingAtomsT
  apply List.Perm.append (h.map _)
  rw [freePositions_congr h]

theorem sortPair_cases (p : ℕ × ℕ) :
    sortPair p = (p.1, p.2) ∨ sortPair p = (p.2, p.1) := by
  unfold sortPair
  by_cases h : p.1 ≤ p.2
  · left
    rw [if_pos h]
  · right
    rw [if_neg h]

theorem freePositions_mapPairs {n : ℕ} {σ : ℕ → ℕ} {Q : List (ℕ × ℕ)}
    (hσlt : ∀ p, p < n → σ p < n)
    (hσinj : ∀ p q, p < n → q < n → σ p = σ q → p = q)
    (hσsurj : ∀ m, m < n → ∃ p, p < n ∧ σ p = m)
    (hQb : ∀ p ∈ Q, p.1 < n ∧ p.2 < n) :
    List.Perm (freePositions n (mapPairs σ Q)) ((freePositions n Q).map σ) := by
  refine (List.perm_ext_iff_of_nodup (freePositions_nodup n _) ?_).2 ?_
  · exact (freePositions_nodup n Q).map_on (fun x hx y hy hxy =>
      hσinj x y (mem_freePositions hx) (mem_freePositions hy) hxy)
  · intro x
    constructor
    · intro hx
      obtain ⟨hxn, hfree⟩ := mem_freePositions_iff.1 hx
      obtain ⟨m, hm, rfl⟩ := hσsurj x hxn
      refine List.mem_map.2 ⟨m, mem_freePositions_iff.2 ⟨hm, ?_⟩, rfl⟩
      intro p hp
      have hmem : sortPair (σ p.1, σ p.2) ∈ mapPairs σ Q :=
        List.mem_map.2 ⟨p, hp, rfl⟩
      have hf := hfree _ hmem
      have hb := hQb p hp
      have hboth : σ p.1 ≠ σ m ∧ σ p.2 ≠ σ m := by
        rcases sortPair_cases (σ p.1, σ p.2) with hsp | hsp <;> rw [hsp] at hf
        · exact hf
        · exact ⟨hf.2, hf.1⟩
      constructor
      · intro he
        exact hboth.1 (by rw [he])
      · intro he
        exact hboth.2 (by rw [he])
    · intro hx
      obtain ⟨m, hm, rfl⟩ := List.mem_map.1 hx
      obtain ⟨hmn, hfree⟩ := mem_freePositions_iff.1 hm
      refine mem_freePositions_iff.2 ⟨hσlt m hmn, ?_⟩
      intro p' hp'
      obtain ⟨q, hq, rfl⟩ := List.mem_map.1 hp'
      have hfq := hfree q hq
      have hbq := hQb q hq
      have hboth : σ q.1 ≠ σ m ∧ σ q.2 ≠ σ m := by
        constructor
        · intro he
          exact hfq.1 (hσinj q.1 m (by omega) hmn he)
        · intro he
          exact hfq.2 (hσinj q.2 m (by omega) hmn he)
      rcases sortPair_cases (σ q.1, σ q.2) with hsp | hsp <;> rw [hsp]
      · exact hboth
      · exact ⟨hboth.2, hboth.1⟩

/-- Delta-orientation of a single monomial ( `symDelta` acts by mapping it). -/
def symMon (m : Mon) : Mon := { m with atoms := m.atoms.map atomSymD }

theorem symDelta_eq_map (r : R) : symDelta r = r.map symMon := rfl

theorem monEquiv_of_atoms_perm {m m' : Mon} (hc : m.coeff = m'.coeff)
    (h0 : m.r0e = m'.r0e) (ha : m.ra0e = m'.ra0e)
    (hat : List.Perm m.atoms m'.atoms) : monEquiv m m' :=
  ⟨hc, by unfold mkey; rw [h0, ha, sortAtoms_congr hat]⟩

/-- Relabelling correspondence for one pairing: the oriented atoms built
from `l₂` and a canonical pairing `Q` are a permutation of the oriented
atoms built from `l₁` and the relabelled pairing. -/
theorem symAtoms_mapPairs {n : ℕ} {σ : ℕ → ℕ} {l₁ l₂ : List ℕ}
    {Q : List (ℕ × ℕ)}
    (hσlt : ∀ p, p < n → σ p < n)
    (hσinj : ∀ p q, p < n → q < n → σ p = σ q → p = q)
    (hσsurj : ∀ m, m < n → ∃ p, p < n ∧ σ p = m)
    (hlab : ∀ p, p < n → l₁.getD (σ p) 0 = l₂.getD p 0)
    (hQb : ∀ p ∈ Q, p.1 < p.2 ∧ p.2 < n) :
    List.Perm ((pairingAtomsT Atom.xa l₂ n Q).map atomSymD)
      ((pairingAtomsT Atom.xa l₁ n (mapPairs σ Q)).map atomSymD) := by
  unfold pairingAtomsT
  rw [List.map_append, List.map_append]
  apply List.Perm.append
  · apply List.Perm.of_eq
    rw [mapPairs, List.map_map, List.map_map, List.map_map]
    apply List.map_congr_left
    intro q hq
    simp only [Function.comp_apply]
    have hb := hQb q hq
    have h1 : l₁.getD (σ q.1) 0 = l₂.getD q.1 0 := hlab q.1 (by omega)
    have h2 : l₁.getD (σ q.2) 0 = l₂.getD q.2 0 := hlab q.2 (by omega)
    rcases sortPair_cases (σ q.1, σ q.2) with hsp | hsp <;> rw [hsp]
    · show atomSymD (Atom.delta (l₂.getD q.1 0) (l₂.getD q.2 0)) =
        atomSymD (Atom.delta (l₁.getD (σ q.1) 0) (l₁.getD (σ q.2) 0))
      rw [h1, h2]
    · show atomSymD (Atom.delta (l₂.getD q.1 0) (l₂.getD q.2 0)) =
        atomSymD (Atom.delta (l₁.getD (σ q.2) 0) (l₁.getD (σ q.1) 0))
      rw [atomSymD_delta_comm (l₁.getD (σ q.2) 0) (l₁.getD (σ q.1) 0), h1, h2]
  · apply List.Perm.map
    have hS4 := freePositions_mapPairs hσlt hσinj hσsurj
      (fun p hp => by have := hQb p hp; omega)
    have h5 : List.Perm
        ((freePositions n (mapPairs σ Q)).map (fun pos => Atom.xa (l₁.getD pos 0)))
        (((freePositions n Q).map σ).map (fun pos => Atom.xa (l₁.getD pos 0))) :=
      hS4.map _
    rw [List.map_map] at h5
    have h6 : (freePositions n Q).map
        ((fun pos => Atom.xa (l₁.getD pos 0)) ∘ σ) =
        (freePositions n Q).map (fun pos => Atom.xa (l₂.getD pos 0)) :=
      List.map_congr_left (fun pos hpos => by
        simp only [Function.comp_apply]
        rw [hlab pos (mem_freePositions hpos)])
    rw [h6] at h5
    exact h5.symm

theorem sortPair_eq_cases {a b c d : ℕ} (h : sortPair (a, b) = sortPair (c, d)) :
    (a = c ∧ b = d) ∨ (a = d ∧ b = c) := by
  unfold sortPair at h
  by_cases h1 : a ≤ b <;> by_cases h2 : c ≤ d <;>
    simp [h1, h2, Prod.ext_iff] at h <;> omega

theorem mapPairs_increasing {n : ℕ} {σ : ℕ → ℕ} {Q : List (ℕ × ℕ)}
    (hσinj : ∀ p q, p < n → q < n → σ p = σ q → p = q)
    (hb : ∀ p ∈ Q, p.1 < p.2 ∧ p.2 < n) :
    ∀ p ∈ mapPairs σ Q, p.1 < p.2 := by
  intro p hp
  obtain ⟨q, hq, rfl⟩ := List.mem_map.1 hp
  obtain ⟨h1, h2⟩ := hb q hq
  have hne : σ q.1 ≠ σ q.2 := fun he =>
    absurd (hσinj q.1 q.2 (by omega) h2 he) (by omega)
  unfold sortPair
  by_cases hc : σ q.1 ≤ σ q.2
  · rw [if_pos hc]
    show σ q.1 < σ q.2
    omega
  · rw [if_neg hc]
    show σ q.2 < σ q.1
    omega

theorem mapPairs_canon_inj {n k : ℕ} {σ : ℕ → ℕ}
    (hσinj : ∀ p q, p < n → q < n → σ p = σ q → p = q)
    {Q Q' : List (ℕ × ℕ)} (hQ : IsCanon n k Q) (hQ' : IsCanon n k Q')
    (h : normKey (mapPairs σ Q) = normKey (mapPairs σ Q')) : Q = Q' := by
  obtain ⟨_, hb, hnd, hsort⟩ := hQ
  obtain ⟨_, hb', hnd', hsort'⟩ := hQ'
  have hperm : List.Perm (mapPairs σ Q) (mapPairs σ Q') :=
    (normKey_perm_self (mapPairs_increasing hσinj hb)).symm.trans
      (h ▸ normKey_perm_self (mapPairs_increasing hσinj hb'))
  have key : ∀ (A B : List (ℕ × ℕ)), (∀ p ∈ A, p.1 < p.2 ∧ p.2 < n) →
      (∀ p ∈ B, p.1 < p.2 ∧ p.2 < n) →
      List.Perm (mapPairs σ A) (mapPairs σ B) → ∀ x ∈ A, x ∈ B := by
    intro A B hbA hbB hAB x hx
    have hmm : sortPair (σ x.1, σ x.2) ∈ mapPairs σ B :=
      hAB.mem_iff.1 (List.mem_map.2 ⟨x, hx, rfl⟩)
    obtain ⟨y, hy, hxy⟩ := List.mem_map.1 hmm
    obtain ⟨hx1, hx2⟩ := hbA x hx
    obtain ⟨hy1, hy2⟩ := hbB y hy
    rcases sortPair_eq_cases hxy with ⟨e1, e2⟩ | ⟨e1, e2⟩
    · have g1 := hσinj y.1 x.1 (by omega) (by omega) e1
      have g2 := hσinj y.2 x.2 hy2 hx2 e2
      have : y = x := Prod.ext g1 g2
      exact this ▸ hy
    · have g1 := hσinj y.1 x.2 (by omega) hx2 e1
      have g2 := hσinj y.2 x.1 hy2 (by omega) e2
      omega
  have hmem : ∀ x, x ∈ Q ↔ x ∈ Q' :=
    fun x => ⟨key Q Q' hb hb' hperm x, key Q' Q hb' hb hperm.symm x⟩
  exact List.eq_of_perm_of_sorted
    ((List.perm_ext_iff_of_nodup (pairs_nodup_of_flat_nodup hnd)
      (pairs_nodup_of_flat_nodup hnd')).2 hmem) hsort hsort'

theorem keys_mapPairs_perm {n k : ℕ} {σ : ℕ → ℕ}
    (hσlt : ∀ p, p < n → σ p < n)
    (hσinj : ∀ p q, p < n → q < n → σ p = σ q → p = q) :
    List.Perm (((genPairings n k).map normKey).map
      (fun Q => normKey (mapPairs σ Q))) ((genPairings n k).map normKey) := by
  have hnd : ((genPairings n k).map normKey).Nodup := genPairings_keys_nodup k n
  have hcanon : ∀ Q ∈ (genPairings n k).map normKey, IsCanon n k Q := by
    intro Q hQ
    obtain ⟨P, hP, rfl⟩ := List.mem_map.1 hQ
    exact normKey_of_mem_genPairings hP
  have hmapnd : (((genPairings n k).map normKey).map
      (fun Q => normKey (mapPairs σ Q))).Nodup :=
    hnd.map_on (fun Q hQ Q' hQ' h =>
      mapPairs_canon_inj hσinj (hcanon Q hQ) (hcanon Q' hQ') h)
  have hsub : ((genPairings n k).map normKey).map
      (fun Q => normKey (mapPairs σ Q)) ⊆ (genPairings n k).map normKey := by
    intro x hx
    obtain ⟨Q, hQ, rfl⟩ := List.mem_map.1 hx
    exact genPairings_complete k n _ (isCanon_mapPairs hσlt hσinj (hcanon Q hQ))
  exact (hmapnd.subperm hsub).perm_of_length_le (le_of_eq (List.length_map _ _).symm)

/-- One trace order `k`: permuting the (distinct) index labels changes the
generated monomial list only up to canonical equality with oriented deltas. -/
theorem qTraceK_perm_eqR {n k : ℕ} {l₁ l₂ : List ℕ} (hnd : l₁.Nodup)
    (hlen : l₁.length = n) (hperm : List.Perm l₁ l₂) :
    eqR (symDelta ((genPairings n k).map (qMonT n k l₁)))
      (symDelta ((genPairings n k).map (qMonT n k l₂))) := by
  have hnd₂ : l₂.Nodup := hperm.nodup_iff.1 hnd
  have hσlt : ∀ p, p < n → permIdx l₁ l₂ p < n :=
    fun p hp => permIdx_lt hperm hlen hp
  have hσinj : ∀ p q, p < n → q < n →
      permIdx l₁ l₂ p = permIdx l₁ l₂ q → p = q :=
    fun p q hp hq h => permIdx_inj hnd₂ hperm hlen hp hq h
  have hσsurj : ∀ m, m < n → ∃ p, p < n ∧ permIdx l₁ l₂ p = m :=
    fun m hm => ⟨permIdx l₂ l₁ m, (permIdx_surj hnd hperm hlen hm).1,
      (permIdx_surj hnd hperm hlen hm).2⟩
  have hlab : ∀ p, p < n → l₁.getD (permIdx l₁ l₂ p) 0 = l₂.getD p 0 :=
    fun p hp => permIdx_getD hperm hlen hp
  have hcanon : ∀ Q ∈ (genPairings n k).map normKey, IsCanon n k Q := by
    intro Q hQ
    obtain ⟨P, hP, rfl⟩ := List.mem_map.1 hQ
    exact normKey_of_mem_genPairings hP
  -- step A (for a generic label list): member monomials match key monomials
  have stepA : ∀ l : List ℕ,
      eqR (symDelta ((genPairings n k).map (qMonT n k l)))
        (symDelta (((genPairings n k).map normKey).map (qMonT n k l))) := by
    intro l
    rw [symDelta_eq_map, symDelta_eq_map, List.map_map, List.map_map,
      List.map_map]
    apply eqR_of_forall₂
    apply forall₂_map_of_forall
    intro P hP
    simp only [Function.comp_apply]
    have hat : List.Perm ((pairingAtomsT Atom.xa l n P).map atomSymD)
        ((pairingAtomsT Atom.xa l n (normKey P)).map atomSymD) :=
      List.Perm.map _ (pairingAtomsT_perm (normKey_perm_self
        (fun p hp => ((genPairings_invariant k n P hP).2.1 p hp).1)).symm)
    exact monEquiv_of_atoms_perm rfl rfl rfl hat
  -- step B: relabel each canonical pairing
  have stepB : eqR
      (symDelta (((genPairings n k).map normKey).map (qMonT n k l₂)))
      (symDelta (((genPairings n k).map normKey).map
        (fun Q => qMonT n k l₁ (normKey (mapPairs (permIdx l₁ l₂) Q))))) := by
    rw [symDelta_eq_map, symDelta_eq_map, List.map_map, List.map_map,
      List.map_map, List.map_map]
    apply eqR_of_forall₂
    apply forall₂_map_of_forall
    intro P hP
    simp only [Function.comp_apply]
    have hc : IsCanon n k (normKey P) := normKey_of_mem_genPairings hP
    have hat : List.Perm ((pairingAtomsT Atom.xa l₂ n (normKey P)).map atomSymD)
        ((pairingAtomsT Atom.xa l₁ n
          (normKey (mapPairs (permIdx l₁ l₂) (normKey P)))).map atomSymD) :=
      (symAtoms_mapPairs hσlt hσinj hσsurj hlab hc.2.1).trans
        (List.Perm.map _ (pairingAtomsT_perm
          (normKey_perm_self (mapPairs_increasing hσinj hc.2.1)).symm))
    exact monEquiv_of_atoms_perm rfl rfl rfl hat
  -- step D: the relabelled keys are a permutation of the keys
  have stepD : eqR
      (symDelta (((genPairings n k).map normKey).map
        (fun Q => qMonT n k l₁ (normKey (mapPairs (permIdx l₁ l₂) Q)))))
      (symDelta (((genPairings n k).map normKey).map (qMonT n k l₁))) := by
    apply eqR_of_perm
    rw [symDelta_eq_map, symDelta_eq_map]
    apply List.Perm.map
    have h := @keys_mapPairs_perm n k (permIdx l₁ l₂) hσlt hσinj
    have h2 := h.map (qMonT n k l₁)
    rw [List.map_map] at h2
    exact h2
  exact eqR_trans (eqR_trans (eqR_trans (stepA l₁) (eqR_symm stepD))
    (eqR_symm stepB)) (eqR_symm (stepA l₂))

theorem qGeneralT_perm_eqRD {n : ℕ} {l₁ l₂ : List ℕ} (hnd : l₁.Nodup)
    (hlen : l₁.length = n) (hperm : List.Perm l₁ l₂) :
    eqRD (qGeneralT n l₁) (qGeneralT n l₂) := by
  show eqR (symDelta (qGeneralT n l₁)) (symDelta (qGeneralT n l₂))
  unfold qGeneralT
  rw [symDelta_eq_map, symDelta_eq_map, List.map_cons, List.map_cons]
  apply eqR_cons
  · exact monEquiv_of_atoms_perm rfl rfl rfl ((hperm.map _).map _)
  · rw [List.map_flatten, List.map_flatten, List.map_map, List.map_map,
      List.map_map, List.map_map]
    apply eqR_flatten
    apply forall₂_map_of_forall
    intro k _
    simp only [Function.comp_apply]
    have h := @qTraceK_perm_eqR n (k + 1) l₁ l₂ hnd hlen hperm
    rw [symDelta_eq_map, symDelta_eq_map] at h
    exact h

/-- C4, counterexample to literal structural equality: already at `n = 2`
swapping the two distinct indices changes the expression, because the code
emits `delta(i,j)` with the arguments in index order and the delta is not
declared symmetric, so `delta(0,1)` and `delta(1,0)` are different atoms
under canonical normalisation of sums and products alone. -/
theorem Q_perm_invariance_cex :
    Qtensor 2 [0, 1] = some (Q2closed 0 1) ∧
    Qtensor 2 [1, 0] = some (Q2closed 1 0) ∧
    ¬ eqR (Q2closed 0 1) (Q2closed 1 0) :=
  ⟨rfl, rfl, by decide⟩

/-- C4, amended: for every `n` and every permutation of a duplicate-free
index list of length `n`, `Q_tensor` succeeds on both lists and the results
are equal after canonical normalisation of commutative sums and products
plus orientation of the (mathematically symmetric) delta arguments. -/
theorem Q_perm_invariance_amended (n : ℕ) (l₁ l₂ : List ℕ) (hnd : l₁.Nodup)
    (hlen : l₁.length = n) (hperm : List.Perm l₁ l₂) :
    ∃ r₁ r₂, Qtensor n l₁ = some r₁ ∧ Qtensor n l₂ = some r₂ ∧ eqRD r₁ r₂ := by
  have hlen₂ : l₂.length = n := by rw [← hperm.length_eq]; exact hlen
  match n, hlen with
  | 0, hlen =>
    have h1 : l₁ = [] := List.eq_nil_of_length_eq_zero hlen
    have h2 : l₂ = [] := List.eq_nil_of_length_eq_zero hlen₂
    subst h1
    subst h2
    exact ⟨[monOne], [monOne], rfl, rfl, fun _ => rfl⟩
  | 1, hlen =>
    obtain ⟨a, ha⟩ : ∃ a, l₁ = [a] := by
      match l₁, hlen with
      | [a], _ => exact ⟨a, rfl⟩
    subst ha
    have h2 : l₂ = [a] := List.perm_singleton.1 hperm.symm
    subst h2
    exact ⟨[⟨1, 0, 0, [Atom.xa a]⟩], [⟨1, 0, 0, [Atom.xa a]⟩], rfl, rfl,
      fun _ => rfl⟩
  | (m + 2), hlen =>
    refine ⟨qGeneralT (m + 2) l₁, qGeneralT (m + 2) l₂, ?_, ?_, ?_⟩
    · show qGeneral (m + 2) l₁ = _
      exact qGeneral_eq_some (le_of_eq hlen.symm)
    · show qGeneral (m + 2) l₂ = _
      exact qGeneral_eq_some (le_of_eq hlen₂.symm)
    · exact qGeneralT_perm_eqRD hnd hlen hperm

theorem Q_perm_invariance_amended_witness :
    ([0, 1] : List ℕ).Nodup ∧ ([0, 1] : List ℕ).length = 2 ∧
      List.Perm [0, 1] [1, 0] ∧
      ∃ r₁ r₂, Qtensor 2 [0, 1] = some r₁ ∧ Qtensor 2 [1, 0] = some r₂ ∧
        eqRD r₁ r₂ :=
  ⟨by decide, rfl, by decide,
    Q_perm_invariance_amended 2 [0, 1] [1, 0] (by decide) rfl (by decide)⟩
